import Mathlib

/-!
# FanOut (package holster, fanout.go)

A shallow embedding of the bounded-concurrency runner of fanout.go as a
labelled transition system.  Go channels are FIFO buffers with a capacity and
a closed flag; every goroutine that can be inside Run or Wait is a
program counter; the error collector started by start() is a pair of
transitions guarded by the WaitGroup counter.  One scheduler action is one
atomic step of one goroutine, or one rendezvous of two goroutines on a
channel whose buffer is empty (the only way a send succeeds on a channel of
capacity 0).

Modelling choices:
* NewFanOut fails (make panics) on a negative size and on a size beyond
  limit, the largest size the runtime accepts; every statement is for every
  limit;
* any number of goroutines may enter Run, at any time (action call);
* a callback is a total function from the payload to an optional error, and
  the time it takes is the scheduler's choice (action finish);
* Wait is called at most once;
* a send on a closed channel and a second close set the flag panicked,
  after which the program makes no step;
* sent and calls are history variables, written but never read by the
  transitions.
-/

namespace Holster

/-! ## Data model -/

/-- A Go channel: buffered values (oldest first), the capacity given to
make, and whether close has been called. -/
structure Chan (α : Type) where
  buf : List α
  cap : Nat
  closed : Bool

/-- The result of make(chan α, size) for a non-negative size. -/
def makeChan (α : Type) (size : Nat) : Chan α :=
  { buf := [], cap := size, closed := false }

/-- The struct FanOut: errChan, size, errs, and the counter of the
WaitGroup routine. -/
structure FanOut (Err : Type) where
  errChan : Chan Err
  size : Chan Bool
  errs : List Err
  routine : Nat

/-- The method start: routine.Add(1), then the collector goroutine is
launched (its two transitions are collect and collectorExit below, enabled
while the counter is non-zero). -/
def FanOut.start {Err : Type} (p : FanOut Err) : FanOut Err :=
  { p with routine := p.routine + 1 }

/-- The constructor NewFanOut(size).  The two calls of make are its only
failures: make panics on a negative size and on a size beyond what the
runtime can allocate ("makechan: size out of range").  limit is the largest
size for which both calls succeed, a constant of the Go runtime and of the
platform (below 2^44 on linux/amd64 for a channel of errors, and never more
than the largest int).  Within it both channels get capacity size, errs is
the empty slice and start() is called. -/
def NewFanOut (Err : Type) (limit : Nat) (size : Int) : Option (FanOut Err) :=
  if size < 0 ∨ (limit : Int) < size then none
  else some (FanOut.start
    { errChan := makeChan Err size.toNat
      size := makeChan Bool size.toNat
      errs := []
      routine := 0 })

/-- Where one call of Run stands.
acquire: at the send on p.size (line 44), not yet admitted;
running: the send is done and callBack(data) is executing (line 45);
report err: callBack returned the non-nil err, at the send on p.errChan (line 47);
release: at the receive from p.size (line 49);
done: Run has returned. -/
inductive RunPc (Err : Type) where
  | acquire : RunPc Err
  | running : RunPc Err
  | report (err : Err) : RunPc Err
  | release : RunPc Err
  | done : RunPc Err

/-- One call Run(callBack, data): its arguments and where it stands.  A nil
error is none. -/
structure RunCall (Err Data : Type) where
  callBack : Data → Option Err
  data : Data
  pc : RunPc Err

/-- Where the call of Wait stands.
idle: not called; loop i: at the head of the for loop with counter i;
close: after the loop, at close(p.errChan); join: at routine.Wait();
returned r: Wait has returned r (none is the nil slice). -/
inductive WaitPc (Err : Type) where
  | idle : WaitPc Err
  | loop (i : Nat) : WaitPc Err
  | close : WaitPc Err
  | join : WaitPc Err
  | returned (r : Option (List Err)) : WaitPc Err

/-- The whole program state: the runner, every call of Run made so far, the
call of Wait, whether a goroutine has panicked, and two history variables
that no transition reads: sent is every error handed to p.errChan, in the
order of the sends; calls is every invocation of a callback (index of the
Run call, payload passed), in the order of the invocations. -/
structure World (Err Data : Type) where
  p : FanOut Err
  runs : List (RunCall Err Data)
  wait : WaitPc Err
  panicked : Bool
  sent : List Err
  calls : List (Nat × Data)

/-- The program right after NewFanOut(size) returned. -/
def boot (Err Data : Type) (limit : Nat) (size : Int) : Option (World Err Data) :=
  (NewFanOut Err limit size).map fun p =>
    { p := p, runs := [], wait := WaitPc.idle, panicked := false, sent := [], calls := [] }

/-- The value Wait returns for a given p.errs (lines 67 to 70): the nil
slice when it is empty, the slice itself otherwise. -/
def waitResult {Err : Type} (errs : List Err) : Option (List Err) :=
  if errs.length = 0 then none else some errs

/-! ## Transitions -/

/-- The scheduler's choices. -/
inductive Action (Err Data : Type) where
  | call (callBack : Data → Option Err) (data : Data) : Action Err Data
  | acquire (i : Nat) : Action Err Data
  | pass (i j : Nat) : Action Err Data
  | finish (i : Nat) : Action Err Data
  | report (i : Nat) : Action Err Data
  | handoff (i : Nat) : Action Err Data
  | release (i : Nat) : Action Err Data
  | waitCall : Action Err Data
  | waitAcquire : Action Err Data
  | waitPass (j : Nat) : Action Err Data
  | waitLoopExit : Action Err Data
  | waitClose : Action Err Data
  | waitReturn : Action Err Data
  | collect : Action Err Data
  | collectorExit : Action Err Data

section Steps
variable {Err Data : Type}

/-- Replace the program counter of a Run call. -/
def RunCall.goto (t : RunCall Err Data) (pc : RunPc Err) : RunCall Err Data :=
  { t with pc := pc }

/-- Buffered send of true on p.size. -/
def pushSlot (p : FanOut Err) : FanOut Err :=
  { p with size := { p.size with buf := p.size.buf ++ [true] } }

/-- A caller enters Run(callBack, data). -/
def stepCall (s : World Err Data) (cb : Data → Option Err) (d : Data) :
    Option (World Err Data) :=
  some { s with runs := s.runs ++ [{ callBack := cb, data := d, pc := RunPc.acquire }] }

/-- Line 44 with room in the buffer of p.size: the token is enqueued and the
callback is invoked on the payload (line 45). -/
def stepAcquire (s : World Err Data) (i : Nat) : Option (World Err Data) :=
  match s.runs[i]? with
  | some t =>
    match t.pc with
    | RunPc.acquire =>
      if s.p.size.buf.length < s.p.size.cap then
        some { s with
          p := pushSlot s.p
          runs := s.runs.set i (t.goto RunPc.running)
          calls := s.calls ++ [(i, t.data)] }
      else none
    | _ => none
  | none => none

/-- Line 44 of call i meeting line 49 of call j on an empty buffer: the
token goes from the sender straight to the waiting receiver. -/
def stepPass (s : World Err Data) (i j : Nat) : Option (World Err Data) :=
  match s.runs[i]?, s.runs[j]? with
  | some t, some u =>
    match t.pc, u.pc with
    | RunPc.acquire, RunPc.release =>
      if s.p.size.buf.length = 0 then
        some { s with
          runs := (s.runs.set i (t.goto RunPc.running)).set j (u.goto RunPc.done)
          calls := s.calls ++ [(i, t.data)] }
      else none
    | _, _ => none
  | _, _ => none

/-- The callback returns (lines 45 and 46). -/
def stepFinish (s : World Err Data) (i : Nat) : Option (World Err Data) :=
  match s.runs[i]? with
  | some t =>
    match t.pc with
    | RunPc.running =>
      match t.callBack t.data with
      | none => some { s with runs := s.runs.set i (t.goto RunPc.release) }
      | some e => some { s with runs := s.runs.set i (t.goto (RunPc.report e)) }
    | _ => none
  | none => none

/-- Line 47 as a buffered send: a send on a closed channel panics, a send on
a full buffer is not enabled. -/
def stepReport (s : World Err Data) (i : Nat) : Option (World Err Data) :=
  match s.runs[i]? with
  | some t =>
    match t.pc with
    | RunPc.report e =>
      if s.p.errChan.closed then some { s with panicked := true }
      else if s.p.errChan.buf.length < s.p.errChan.cap then
        some { s with
          p := { s.p with errChan := { s.p.errChan with buf := s.p.errChan.buf ++ [e] } }
          runs := s.runs.set i (t.goto RunPc.release)
          sent := s.sent ++ [e] }
      else none
    | _ => none
  | none => none

/-- Line 47 meeting the collector's receive (line 31) on an empty buffer:
the error goes straight to the collector, which appends it (line 36). -/
def stepHandoff (s : World Err Data) (i : Nat) : Option (World Err Data) :=
  match s.runs[i]? with
  | some t =>
    match t.pc with
    | RunPc.report e =>
      if s.p.errChan.closed = false ∧ s.p.errChan.buf.length = 0 ∧ s.p.routine ≠ 0 then
        some { s with
          p := { s.p with errs := s.p.errs ++ [e] }
          runs := s.runs.set i (t.goto RunPc.release)
          sent := s.sent ++ [e] }
      else none
    | _ => none
  | none => none

/-- Line 49 as a buffered receive. -/
def stepRelease (s : World Err Data) (i : Nat) : Option (World Err Data) :=
  match s.runs[i]? with
  | some t =>
    match t.pc with
    | RunPc.release =>
      match s.p.size.buf with
      | _ :: rest =>
        some { s with
          p := { s.p with size := { s.p.size with buf := rest } }
          runs := s.runs.set i (t.goto RunPc.done) }
      | [] => none
    | _ => none
  | none => none

/-- Wait is called: i := 0 (line 55). -/
def stepWaitCall (s : World Err Data) : Option (World Err Data) :=
  match s.wait with
  | WaitPc.idle => some { s with wait := WaitPc.loop 0 }
  | _ => none

/-- One iteration of the loop of Wait as a buffered send (lines 55 and 56). -/
def stepWaitAcquire (s : World Err Data) : Option (World Err Data) :=
  match s.wait with
  | WaitPc.loop i =>
    if i < s.p.size.cap ∧ s.p.size.buf.length < s.p.size.cap then
      some { s with p := pushSlot s.p, wait := WaitPc.loop (i + 1) }
    else none
  | _ => none

/-- One iteration of the loop of Wait meeting line 49 of call j on an empty
buffer. -/
def stepWaitPass (s : World Err Data) (j : Nat) : Option (World Err Data) :=
  match s.wait, s.runs[j]? with
  | WaitPc.loop i, some u =>
    match u.pc with
    | RunPc.release =>
      if i < s.p.size.cap ∧ s.p.size.buf.length = 0 then
        some { s with runs := s.runs.set j (u.goto RunPc.done), wait := WaitPc.loop (i + 1) }
      else none
    | _ => none
  | _, _ => none

/-- The loop condition i < cap(p.size) fails (line 55). -/
def stepWaitLoopExit (s : World Err Data) : Option (World Err Data) :=
  match s.wait with
  | WaitPc.loop i =>
    if i < s.p.size.cap then none else some { s with wait := WaitPc.close }
  | _ => none

/-- Lines 59 to 61: p.errChan is never the nil channel, so it is closed;
closing a closed channel panics. -/
def stepWaitClose (s : World Err Data) : Option (World Err Data) :=
  match s.wait with
  | WaitPc.close =>
    if s.p.errChan.closed then some { s with panicked := true }
    else some { s with
      p := { s.p with errChan := { s.p.errChan with closed := true } }
      wait := WaitPc.join }
  | _ => none

/-- Lines 64 to 70: routine.Wait() passes once the counter is zero, and Wait
returns. -/
def stepWaitReturn (s : World Err Data) : Option (World Err Data) :=
  match s.wait with
  | WaitPc.join =>
    if s.p.routine = 0 then some { s with wait := WaitPc.returned (waitResult s.p.errs) }
    else none
  | _ => none

/-- The collector receives a buffered error and appends it (lines 31 and 36). -/
def stepCollect (s : World Err Data) : Option (World Err Data) :=
  if s.p.routine = 0 then none
  else
    match s.p.errChan.buf with
    | e :: rest =>
      some { s with
        p := { s.p with errChan := { s.p.errChan with buf := rest }, errs := s.p.errs ++ [e] } }
    | [] => none

/-- The collector receives from the closed, drained channel: routine.Done()
and the goroutine ends (lines 32 to 34). -/
def stepCollectorExit (s : World Err Data) : Option (World Err Data) :=
  if s.p.routine = 0 then none
  else
    match s.p.errChan.buf with
    | [] =>
      if s.p.errChan.closed then some { s with p := { s.p with routine := s.p.routine - 1 } }
      else none
    | _ :: _ => none

/-- One scheduler step.  A panicked program makes no further step. -/
def step (s : World Err Data) (a : Action Err Data) : Option (World Err Data) :=
  if s.panicked then none
  else
    match a with
    | Action.call cb d => stepCall s cb d
    | Action.acquire i => stepAcquire s i
    | Action.pass i j => stepPass s i j
    | Action.finish i => stepFinish s i
    | Action.report i => stepReport s i
    | Action.handoff i => stepHandoff s i
    | Action.release i => stepRelease s i
    | Action.waitCall => stepWaitCall s
    | Action.waitAcquire => stepWaitAcquire s
    | Action.waitPass j => stepWaitPass s j
    | Action.waitLoopExit => stepWaitLoopExit s
    | Action.waitClose => stepWaitClose s
    | Action.waitReturn => stepWaitReturn s
    | Action.collect => stepCollect s
    | Action.collectorExit => stepCollectorExit s

/-- Run a schedule. -/
def exec (s : World Err Data) : List (Action Err Data) → Option (World Err Data)
  | [] => some s
  | a :: rest =>
    match step s a with
    | some s' => exec s' rest
    | none => none

/-- The states some schedule leads to from NewFanOut(size), where make
accepts sizes up to limit. -/
def Reachable (limit : Nat) (size : Int) (s : World Err Data) : Prop :=
  ∃ w acts, boot Err Data limit size = some w ∧ exec w acts = some s

/-! ## Observations -/

/-- The call holds a slot: it has sent on p.size and not yet received. -/
def RunPc.holdsSlot : RunPc Err → Bool
  | RunPc.running => true
  | RunPc.report _ => true
  | RunPc.release => true
  | _ => false

/-- The callback of the call is executing. -/
def RunPc.isRunning : RunPc Err → Bool
  | RunPc.running => true
  | _ => false

/-- The call has not been admitted. -/
def RunPc.isAcquire : RunPc Err → Bool
  | RunPc.acquire => true
  | _ => false

/-- The call has returned. -/
def RunPc.isDone : RunPc Err → Bool
  | RunPc.done => true
  | _ => false

/-- A single caller issues its Run calls one after another: a new call is
made only when every earlier call has returned. -/
def seqOk (s : World Err Data) : Action Err Data → Bool
  | Action.call _ _ => s.runs.all fun t => t.pc.isDone
  | _ => true

/-- Run a schedule of a program with a single caller of Run. -/
def execSeq (s : World Err Data) : List (Action Err Data) → Option (World Err Data)
  | [] => some s
  | a :: rest =>
    if seqOk s a then
      match step s a with
      | some s' => execSeq s' rest
      | none => none
    else none

/-- The states reachable when a single caller issues the Run calls. -/
def ReachableSeq (limit : Nat) (size : Int) (s : World Err Data) : Prop :=
  ∃ w acts, boot Err Data limit size = some w ∧ execSeq w acts = some s

/-- The call holds a slot. -/
def RunCall.holds (t : RunCall Err Data) : Bool :=
  t.pc.holdsSlot

/-- The callback of the call is executing. -/
def RunCall.isRunning (t : RunCall Err Data) : Bool :=
  t.pc.isRunning

/-- Number of callbacks currently executing. -/
def executing (s : World Err Data) : Nat :=
  s.runs.countP RunCall.isRunning

/-- Number of Run calls holding a slot. -/
def holders (s : World Err Data) : Nat :=
  s.runs.countP RunCall.holds

/-- Number of tokens in the slot channel. -/
def tokens (s : World Err Data) : Nat :=
  s.p.size.buf.length

/-- Number of tokens Wait has put into the slot channel. -/
def WaitPc.acquired (cap : Nat) : WaitPc Err → Nat
  | WaitPc.idle => 0
  | WaitPc.loop i => i
  | _ => cap

/-- Wait has finished acquiring its slots: its counter has reached the
capacity, or it is past the loop. -/
def WaitPc.drained (cap : Nat) : WaitPc Err → Bool
  | WaitPc.idle => false
  | WaitPc.loop i => decide (cap ≤ i)
  | _ => true

/-- Wait is past close(p.errChan). -/
def WaitPc.pastClose : WaitPc Err → Bool
  | WaitPc.join => true
  | WaitPc.returned _ => true
  | _ => false

/-- What the callback of a call returns. -/
def RunCall.result (t : RunCall Err Data) : Option Err :=
  t.callBack t.data

/-- The error a call has handed to p.errChan so far, if any. -/
def RunCall.reported (t : RunCall Err Data) : Option Err :=
  match t.pc with
  | RunPc.release => t.callBack t.data
  | RunPc.done => t.callBack t.data
  | _ => none

/-- The error returned by the callback of a call that has been admitted and
whose callback has returned, if any. -/
def RunCall.produced (t : RunCall Err Data) : Option Err :=
  match t.pc with
  | RunPc.acquire => none
  | RunPc.running => none
  | _ => t.callBack t.data

/-- A schedule that takes one new call Run(cb, d) from entry to return with
no other caller moving: the collector is scheduled once when the call finds
the buffer of p.errChan full. -/
def runSchedule (s : World Err Data) (cb : Data → Option Err) (d : Data) :
    List (Action Err Data) :=
  [Action.call cb d, Action.acquire s.runs.length, Action.finish s.runs.length] ++
    (match cb d with
      | none => []
      | some _ =>
        (if s.p.errChan.buf.length < s.p.errChan.cap then [] else [Action.collect]) ++
          [Action.report s.runs.length]) ++
    [Action.release s.runs.length]

/-- The call Run(cb, d) taken to completion from state s. -/
def Run (s : World Err Data) (cb : Data → Option Err) (d : Data) : Option (World Err Data) :=
  exec s (runSchedule s cb d)

/-- The state invariant of the program. -/
structure Inv (s : World Err Data) : Prop where
  slots : s.p.size.buf.length = holders s + s.wait.acquired s.p.size.cap
  loopLe : ∀ i, s.wait = WaitPc.loop i → i ≤ s.p.size.cap
  slotLe : s.p.size.buf.length ≤ s.p.size.cap
  capEq : s.p.errChan.cap = s.p.size.cap
  log : s.sent = s.p.errs ++ s.p.errChan.buf
  errLe : s.p.errChan.buf.length ≤ s.p.errChan.cap
  closed : s.p.errChan.closed = s.wait.pastClose
  routineLe : s.p.routine ≤ 1
  routine : s.p.routine = 0 → s.p.errChan.closed = true ∧ s.p.errChan.buf = []
  ret : ∀ r, s.wait = WaitPc.returned r → s.p.routine = 0 ∧ r = waitResult s.p.errs
  noPanic : s.panicked = false
  perm : s.sent.Perm (s.runs.filterMap RunCall.reported)
  rep : ∀ t ∈ s.runs, ∀ e, t.pc = RunPc.report e → t.callBack t.data = some e

/-- A schedule that takes Wait from its call to its return with no caller
of Run moving: cap(p.size) sends on p.size, the close, one receive of the
collector for each buffered error, the collector's exit and the return. -/
def waitSchedule (s : World Err Data) : List (Action Err Data) :=
  Action.waitCall ::
    (List.replicate s.p.size.cap Action.waitAcquire ++
      (Action.waitLoopExit :: Action.waitClose ::
        (List.replicate s.p.errChan.buf.length Action.collect ++
          [Action.collectorExit, Action.waitReturn])))

/-- The call Wait() taken to completion from state s. -/
def Wait (s : World Err Data) : Option (World Err Data) :=
  exec s (waitSchedule s)

/-- A schedule in which the callers of the given tasks enter Run and are
admitted, none of the callbacks returning: caller k enters and sends on
p.size. -/
def startAll : Nat → List ((Data → Option Err) × Data) → List (Action Err Data)
  | _, [] => []
  | k, (cb, d) :: rest => Action.call cb d :: Action.acquire k :: startAll (k + 1) rest

/-- What one step does to the Run calls and to the two histories. -/
inductive Effect (s : World Err Data) (a : Action Err Data) (s' : World Err Data) : Prop where
  | quiet (hr : s'.runs = s.runs) (hs : s'.sent = s.sent) (hc : s'.calls = s.calls) :
      Effect s a s'
  | enter (cb : Data → Option Err) (d : Data) (ha : a = Action.call cb d)
      (hr : s'.runs = s.runs ++ [{ callBack := cb, data := d, pc := RunPc.acquire }])
      (hs : s'.sent = s.sent) (hc : s'.calls = s.calls) (hp : s'.p = s.p)
      (hw : s'.wait = s.wait) : Effect s a s'
  | grant (i : Nat) (t : RunCall Err Data) (ht : s.runs[i]? = some t)
      (hpc : t.pc = RunPc.acquire) (hfree : s.p.size.buf.length < s.p.size.cap)
      (hr : s'.runs = s.runs.set i (t.goto RunPc.running))
      (hs : s'.sent = s.sent) (hc : s'.calls = s.calls ++ [(i, t.data)]) : Effect s a s'
  | move (i : Nat) (t : RunCall Err Data) (pc : RunPc Err) (ht : s.runs[i]? = some t)
      (hpc : t.pc.holdsSlot = true) (hr : s'.runs = s.runs.set i (t.goto pc))
      (hs : s'.sent = s.sent) (hc : s'.calls = s.calls)
      (hf : (t.goto pc).reported = t.reported) (hn : pc.isRunning = false)
      (hq : pc.isAcquire = false) : Effect s a s'
  | send (i : Nat) (t : RunCall Err Data) (e : Err) (ht : s.runs[i]? = some t)
      (hpc : t.pc = RunPc.report e) (hcb : t.callBack t.data = some e)
      (hr : s'.runs = s.runs.set i (t.goto RunPc.release))
      (hs : s'.sent = s.sent ++ [e]) (hc : s'.calls = s.calls) : Effect s a s'

/-- The invocations the callback of call i must have had so far: none while
the call is not admitted, one on its payload afterwards. -/
def invoked (runs : List (RunCall Err Data)) (i : Nat) : List (Nat × Data) :=
  match runs[i]? with
  | some t => if t.pc.isAcquire then [] else [(i, t.data)]
  | none => []

/-- The invocation history holds, for every call, exactly the invocations
of invoked. -/
def CallsOnce (s : World Err Data) : Prop :=
  ∀ i : Nat, s.calls.filter (fun c => c.1 == i) = invoked s.runs i

/-- Every Run call but the most recent one has returned. -/
def AllButLastDone : List (RunCall Err Data) → Prop
  | [] => True
  | [_] => True
  | t :: u :: rest => t.pc.isDone = true ∧ AllButLastDone (u :: rest)

/-- The invariant of a program with a single caller of Run. -/
structure InvSeq (s : World Err Data) : Prop where
  serial : AllButLastDone s.runs
  order : s.sent = s.runs.filterMap RunCall.reported

end Steps

/-! ## Concrete scenarios -/

/-- A task that returns the given error. -/
def failWith (e : Nat) : Unit → Option Nat :=
  fun _ => some e

/-- A task that returns nil. -/
def succeed : Unit → Option Nat :=
  fun _ => none

/-- NewFanOut(n) just returned. -/
def fresh (n : Nat) : World Nat Unit :=
  { p := { errChan := makeChan Nat n, size := makeChan Bool n, errs := [], routine := 1 }
    runs := [], wait := WaitPc.idle, panicked := false, sent := [], calls := [] }

/-- Two callers enter Run on a runner of size 2 and both are admitted. -/
def bothRunningSchedule : List (Action Nat Unit) :=
  [Action.call (failWith 5) (), Action.call succeed (), Action.acquire 0, Action.acquire 1]

/-- The state after bothRunningSchedule. -/
def bothRunning : World Nat Unit :=
  { p := { errChan := { buf := [], cap := 2, closed := false }
           size := { buf := [true, true], cap := 2, closed := false }
           errs := [], routine := 1 }
    runs := [{ callBack := failWith 5, data := (), pc := RunPc.running },
             { callBack := succeed, data := (), pc := RunPc.running }]
    wait := WaitPc.idle, panicked := false, sent := []
    calls := [(0, ()), (1, ())] }

/-- A single caller on a runner of size 2 enters Run; its callback is
executing. -/
def oneRunningSchedule : List (Action Nat Unit) :=
  [Action.call (failWith 5) (), Action.acquire 0]

/-- The state after oneRunningSchedule. -/
def oneRunning : World Nat Unit :=
  { p := { errChan := { buf := [], cap := 2, closed := false }
           size := { buf := [true], cap := 2, closed := false }
           errs := [], routine := 1 }
    runs := [{ callBack := failWith 5, data := (), pc := RunPc.running }]
    wait := WaitPc.idle, panicked := false, sent := []
    calls := [(0, ())] }

/-- A single caller on a runner of size 2 makes three Run calls one after
another (errors 5, nil, 7), the collector receives both errors, then Wait
runs to its return. -/
def serialSchedule : List (Action Nat Unit) :=
  [Action.call (failWith 5) (), Action.acquire 0, Action.finish 0, Action.report 0,
   Action.release 0,
   Action.call succeed (), Action.acquire 1, Action.finish 1, Action.release 1,
   Action.call (failWith 7) (), Action.acquire 2, Action.finish 2, Action.report 2,
   Action.release 2,
   Action.collect, Action.collect,
   Action.waitCall, Action.waitAcquire, Action.waitAcquire, Action.waitLoopExit,
   Action.waitClose, Action.collectorExit, Action.waitReturn]

/-- The three Run calls of serialSchedule, before the collector and Wait
move. -/
def serialRunsSchedule : List (Action Nat Unit) :=
  serialSchedule.take 14

/-- The state after serialRunsSchedule: the three calls have returned, both
errors are buffered in p.errChan, Wait is not called. -/
def serialReady : World Nat Unit :=
  { p := { errChan := { buf := [5, 7], cap := 2, closed := false }
           size := { buf := [], cap := 2, closed := false }
           errs := [], routine := 1 }
    runs := [{ callBack := failWith 5, data := (), pc := RunPc.done },
             { callBack := succeed, data := (), pc := RunPc.done },
             { callBack := failWith 7, data := (), pc := RunPc.done }]
    wait := WaitPc.idle, panicked := false, sent := [5, 7]
    calls := [(0, ()), (1, ()), (2, ())] }

/-- The state after serialSchedule. -/
def serialFinal : World Nat Unit :=
  { p := { errChan := { buf := [], cap := 2, closed := true }
           size := { buf := [true, true], cap := 2, closed := false }
           errs := [5, 7], routine := 0 }
    runs := [{ callBack := failWith 5, data := (), pc := RunPc.done },
             { callBack := succeed, data := (), pc := RunPc.done },
             { callBack := failWith 7, data := (), pc := RunPc.done }]
    wait := WaitPc.returned (some [5, 7]), panicked := false, sent := [5, 7]
    calls := [(0, ()), (1, ()), (2, ())] }

/-- The state serialFinal after one more caller has entered Run. -/
def serialLate : World Nat Unit :=
  { serialFinal with
    runs := serialFinal.runs ++ [{ callBack := failWith 9, data := (), pc := RunPc.acquire }] }

/-- On a runner of size 1 a first Run call returns error 5 and completes
while the collector does not move; a second Run call is admitted and its
callback returns error 7. -/
def fullBufferSchedule : List (Action Nat Unit) :=
  [Action.call (failWith 5) (), Action.acquire 0, Action.finish 0, Action.report 0,
   Action.release 0,
   Action.call (failWith 7) (), Action.acquire 1, Action.finish 1]

/-- The state after fullBufferSchedule: the second call holds the slot and
has error 7 to report, and the buffer of p.errChan holds 1 error. -/
def fullBuffer : World Nat Unit :=
  { p := { errChan := { buf := [5], cap := 1, closed := false }
           size := { buf := [true], cap := 1, closed := false }
           errs := [], routine := 1 }
    runs := [{ callBack := failWith 5, data := (), pc := RunPc.done },
             { callBack := failWith 7, data := (), pc := RunPc.report 7 }]
    wait := WaitPc.idle, panicked := false, sent := [5]
    calls := [(0, ()), (1, ())] }

/-- On a runner of size 2 a first Run call sends error 5 and stays at its
receive from p.size, a second sends error 6 and returns, the collector does
not move; a third Run call is admitted and its callback returns error 7. -/
def heldFullSchedule : List (Action Nat Unit) :=
  [Action.call (failWith 5) (), Action.acquire 0, Action.finish 0, Action.report 0,
   Action.call (failWith 6) (), Action.acquire 1, Action.finish 1, Action.report 1,
   Action.release 1,
   Action.call (failWith 7) (), Action.acquire 2, Action.finish 2]

/-- The state after heldFullSchedule: the buffer of p.errChan holds 2 errors,
one of them sent by a call that still holds its slot. -/
def heldFull : World Nat Unit :=
  { p := { errChan := { buf := [5, 6], cap := 2, closed := false }
           size := { buf := [true, true], cap := 2, closed := false }
           errs := [], routine := 1 }
    runs := [{ callBack := failWith 5, data := (), pc := RunPc.release },
             { callBack := failWith 6, data := (), pc := RunPc.done },
             { callBack := failWith 7, data := (), pc := RunPc.report 7 }]
    wait := WaitPc.idle, panicked := false, sent := [5, 6]
    calls := [(0, ()), (1, ()), (2, ())] }

/-! ## List lemmas -/

theorem countP_set_add {α : Type} (p : α → Bool) (l : List α) (i : Nat) (a b : α)
    (h : l[i]? = some a) :
    (l.set i b).countP p + (if p a then 1 else 0) = l.countP p + (if p b then 1 else 0) := by
  induction l generalizing i with
  | nil => simp at h
  | cons x xs ih =>
    cases i with
    | zero =>
      simp at h
      subst h
      simp [List.countP_cons]
      omega
    | succ n =>
      simp at h
      have := ih n h
      simp [List.countP_cons]
      omega

theorem filterMap_set_eq {α β : Type} (f : α → Option β) (l : List α) (i : Nat) (a b : α)
    (h : l[i]? = some a) (hf : f b = f a) : (l.set i b).filterMap f = l.filterMap f := by
  induction l generalizing i with
  | nil => simp at h
  | cons x xs ih =>
    cases i with
    | zero =>
      simp at h
      subst h
      simp [List.filterMap_cons, hf]
    | succ n =>
      simp at h
      simp [List.filterMap_cons, ih n h]

theorem filterMap_set_perm {α β : Type} (f : α → Option β) (l : List α) (i : Nat) (a b : α)
    (e : β) (h : l[i]? = some a) (ha : f a = none) (hb : f b = some e) :
    ((l.set i b).filterMap f).Perm (l.filterMap f ++ [e]) := by
  induction l generalizing i with
  | nil => simp at h
  | cons x xs ih =>
    cases i with
    | zero =>
      simp at h
      subst h
      simp [List.filterMap_cons, ha, hb]
      exact (List.perm_append_singleton e _).symm
    | succ n =>
      simp at h
      have := ih n h
      simp only [List.set_cons_succ, List.filterMap_cons]
      cases f x with
      | none => simpa using this
      | some y => simpa using this

theorem mem_of_getElem?_some {α : Type} (l : List α) (i : Nat) (a : α)
    (h : l[i]? = some a) : a ∈ l := by
  induction l generalizing i with
  | nil => simp at h
  | cons x xs ih =>
    cases i with
    | zero =>
      simp at h
      simp [h]
    | succ n =>
      simp at h
      exact List.mem_cons_of_mem _ (ih n h)

theorem countP_pos_of_getElem? {α : Type} (p : α → Bool) (l : List α) (i : Nat) (a : α)
    (h : l[i]? = some a) (hp : p a = true) : 1 ≤ l.countP p :=
  List.countP_pos_iff.mpr ⟨a, mem_of_getElem?_some l i a h, hp⟩

section Serial
variable {Err Data : Type}

theorem abl_concat (l : List (RunCall Err Data)) (x : RunCall Err Data)
    (h : ∀ t ∈ l, t.pc.isDone = true) : AllButLastDone (l ++ [x]) := by
  induction l with
  | nil => simp [AllButLastDone]
  | cons a rest ih =>
    have hr := ih (fun t ht => h t (List.mem_cons_of_mem _ ht))
    cases rest with
    | nil => simpa [AllButLastDone] using h a (by simp)
    | cons b rest2 =>
      exact ⟨h a (by simp), hr⟩

theorem abl_set (l : List (RunCall Err Data)) (i : Nat) (t u : RunCall Err Data)
    (h : AllButLastDone l) (ht : l[i]? = some t) (hnd : t.pc.isDone = false) :
    AllButLastDone (l.set i u) := by
  induction l generalizing i with
  | nil => simp at ht
  | cons a rest ih =>
    cases rest with
    | nil =>
      cases i with
      | zero => simp [AllButLastDone]
      | succ n => simp at ht
    | cons b rest2 =>
      cases i with
      | zero =>
        simp at ht
        subst ht
        rw [h.1] at hnd
        simp at hnd
      | succ n =>
        simp only [List.getElem?_cons_succ] at ht
        have := ih n h.2 ht
        cases n with
        | zero => exact ⟨h.1, this⟩
        | succ m => exact ⟨h.1, this⟩

theorem abl_filterMap_set {β : Type} (f : RunCall Err Data → Option β)
    (l : List (RunCall Err Data)) (i : Nat) (t u : RunCall Err Data) (e : β)
    (h : AllButLastDone l) (ht : l[i]? = some t) (hnd : t.pc.isDone = false)
    (hu : f u = some e) : (l.set i u).filterMap f = l.dropLast.filterMap f ++ [e] := by
  induction l generalizing i with
  | nil => simp at ht
  | cons a rest ih =>
    cases rest with
    | nil =>
      cases i with
      | zero => simp [List.filterMap_cons, hu]
      | succ n => simp at ht
    | cons b rest2 =>
      cases i with
      | zero =>
        simp at ht
        subst ht
        rw [h.1] at hnd
        simp at hnd
      | succ n =>
        simp only [List.getElem?_cons_succ] at ht
        have := ih n h.2 ht
        simp only [List.set_cons_succ, List.filterMap_cons, List.dropLast_cons₂]
        rw [this]
        cases f a <;> simp

theorem filterMap_dropLast_of_last {β : Type} (f : RunCall Err Data → Option β)
    (l : List (RunCall Err Data)) (i : Nat) (t : RunCall Err Data)
    (h : AllButLastDone l) (ht : l[i]? = some t) (hnd : t.pc.isDone = false)
    (hf : f t = none) : l.dropLast.filterMap f = l.filterMap f := by
  induction l generalizing i with
  | nil => simp at ht
  | cons a rest ih =>
    cases rest with
    | nil =>
      cases i with
      | zero =>
        simp at ht
        subst ht
        simp [List.filterMap_cons, hf]
      | succ n => simp at ht
    | cons b rest2 =>
      cases i with
      | zero =>
        simp at ht
        subst ht
        rw [h.1] at hnd
        simp at hnd
      | succ n =>
        simp only [List.getElem?_cons_succ] at ht
        have := ih n h.2 ht
        have e1 : (a :: b :: rest2).dropLast = a :: (b :: rest2).dropLast := rfl
        rw [e1]
        generalize (b :: rest2) = l' at this ⊢
        simp only [List.filterMap_cons, this]

theorem abl_countP (l : List (RunCall Err Data)) (h : AllButLastDone l) :
    l.countP RunCall.isRunning ≤ 1 := by
  induction l with
  | nil => simp
  | cons a rest ih =>
    cases rest with
    | nil =>
      simp only [List.countP_cons, List.countP_nil]
      split <;> omega
    | cons b rest2 =>
      have h1 := ih h.2
      have h2 : a.isRunning = false := by
        have := h.1
        cases hp : a.pc <;> simp [RunCall.isRunning, RunPc.isRunning, RunPc.isDone, hp] at *
      rw [List.countP_cons, h2]
      simpa using h1

end Serial

section Invariant
variable {Err Data : Type}

theorem holders_goto (l : List (RunCall Err Data)) (i : Nat) (t : RunCall Err Data)
    (pc : RunPc Err) (ht : l[i]? = some t) :
    (l.set i (t.goto pc)).countP RunCall.holds + (if t.pc.holdsSlot then 1 else 0)
      = l.countP RunCall.holds + (if pc.holdsSlot then 1 else 0) := by
  have := countP_set_add RunCall.holds l i t (t.goto pc) ht
  simpa [RunCall.holds, RunCall.goto] using this

theorem rep_goto (l : List (RunCall Err Data)) (i : Nat) (t : RunCall Err Data)
    (pc : RunPc Err)
    (h : ∀ u ∈ l, ∀ e, u.pc = RunPc.report e → u.callBack u.data = some e)
    (hpc : ∀ e, pc = RunPc.report e → t.callBack t.data = some e) :
    ∀ u ∈ l.set i (t.goto pc), ∀ e, u.pc = RunPc.report e → u.callBack u.data = some e := by
  intro u hu e he
  rcases List.mem_or_eq_of_mem_set hu with hu | rfl
  · exact h u hu e he
  · exact hpc e he

theorem reported_goto_eq (l : List (RunCall Err Data)) (i : Nat) (t : RunCall Err Data)
    (pc : RunPc Err) (ht : l[i]? = some t)
    (hf : (t.goto pc).reported = t.reported) :
    (l.set i (t.goto pc)).filterMap RunCall.reported = l.filterMap RunCall.reported :=
  filterMap_set_eq RunCall.reported l i t _ ht hf

theorem inv_stepCall (s s' : World Err Data) (cb : Data → Option Err) (d : Data)
    (h : Inv s) (hs : stepCall s cb d = some s') : Inv s' := by
  simp only [stepCall, Option.some.injEq] at hs
  subst hs
  refine ⟨?_, h.loopLe, h.slotLe, h.capEq, h.log, h.errLe, h.closed, h.routineLe,
    h.routine, h.ret, h.noPanic, ?_, ?_⟩
  · simpa [holders, List.countP_append, RunPc.holdsSlot, RunCall.holds] using h.slots
  · simpa [List.filterMap_append, RunCall.reported] using h.perm
  · intro t ht e he
    simp only [List.mem_append, List.mem_singleton] at ht
    rcases ht with ht | rfl
    · exact h.rep t ht e he
    · simp at he

theorem inv_stepAcquire (s s' : World Err Data) (i : Nat)
    (h : Inv s) (hs : stepAcquire s i = some s') : Inv s' := by
  unfold stepAcquire at hs
  split at hs
  · rename_i t ht
    split at hs
    · rename_i hpc
      split at hs
      · rename_i hlt
        simp only [Option.some.injEq] at hs
        subst hs
        have hc := holders_goto s.runs i t RunPc.running ht
        simp [hpc, RunPc.holdsSlot] at hc
        refine ⟨?_, h.loopLe, ?_, h.capEq, h.log, h.errLe, h.closed, h.routineLe,
          h.routine, h.ret, h.noPanic, ?_, ?_⟩
        · have := h.slots
          simp only [holders, pushSlot, List.length_append, List.length_singleton] at *
          omega
        · simp only [pushSlot, List.length_append, List.length_singleton]
          omega
        · rw [reported_goto_eq s.runs i t _ ht
            (by simp [RunCall.reported, RunCall.goto, hpc])]
          exact h.perm
        · exact rep_goto s.runs i t _ h.rep (by simp)
      · simp at hs
    · simp at hs
  · simp at hs

theorem acquired_of_pastClose (w : WaitPc Err) (cap : Nat) (h : w.pastClose = true) :
    w.acquired cap = cap := by
  cases w <;> simp [WaitPc.pastClose, WaitPc.acquired] at *

theorem no_release_on_empty (s : World Err Data) (j : Nat) (u : RunCall Err Data)
    (h : Inv s) (hu : s.runs[j]? = some u) (hpc : u.pc.holdsSlot = true) :
    1 ≤ s.p.size.buf.length := by
  have h1 := countP_pos_of_getElem? RunCall.holds s.runs j u hu (by simpa [RunCall.holds] using hpc)
  have h2 := h.slots
  simp only [holders] at h2
  omega

theorem open_of_holder (s : World Err Data) (j : Nat) (u : RunCall Err Data)
    (h : Inv s) (hu : s.runs[j]? = some u) (hpc : u.pc.holdsSlot = true) :
    s.p.errChan.closed = false := by
  have h1 := countP_pos_of_getElem? RunCall.holds s.runs j u hu (by simpa [RunCall.holds] using hpc)
  have h2 := h.slots
  have h3 := h.slotLe
  simp only [holders] at h2
  cases hc : s.p.errChan.closed with
  | false => rfl
  | true =>
    have h4 := acquired_of_pastClose s.wait s.p.size.cap (by rw [← h.closed]; exact hc)
    omega

theorem inv_stepPass (s s' : World Err Data) (i j : Nat)
    (h : Inv s) (hs : stepPass s i j = some s') : Inv s' := by
  unfold stepPass at hs
  split at hs
  · rename_i t u ht hu
    split at hs
    · rename_i hpt hpu
      split at hs
      · rename_i h0
        have := no_release_on_empty s j u h hu (by simp [hpu, RunPc.holdsSlot])
        omega
      · simp at hs
    · simp at hs
  · simp at hs

theorem inv_stepFinish (s s' : World Err Data) (i : Nat)
    (h : Inv s) (hs : stepFinish s i = some s') : Inv s' := by
  unfold stepFinish at hs
  split at hs
  · rename_i t ht
    split at hs
    · rename_i hpc
      split at hs
      · rename_i hcb
        simp only [Option.some.injEq] at hs
        subst hs
        have hc := holders_goto s.runs i t RunPc.release ht
        simp [hpc, RunPc.holdsSlot] at hc
        refine ⟨?_, h.loopLe, h.slotLe, h.capEq, h.log, h.errLe, h.closed, h.routineLe,
          h.routine, h.ret, h.noPanic, ?_, ?_⟩
        · have := h.slots
          simp only [holders] at *
          omega
        · rw [reported_goto_eq s.runs i t _ ht
            (by simp [RunCall.reported, RunCall.goto, hpc, hcb])]
          exact h.perm
        · exact rep_goto s.runs i t _ h.rep (by simp)
      · rename_i e hcb
        simp only [Option.some.injEq] at hs
        subst hs
        have hc := holders_goto s.runs i t (RunPc.report e) ht
        simp [hpc, RunPc.holdsSlot] at hc
        refine ⟨?_, h.loopLe, h.slotLe, h.capEq, h.log, h.errLe, h.closed, h.routineLe,
          h.routine, h.ret, h.noPanic, ?_, ?_⟩
        · have := h.slots
          simp only [holders] at *
          omega
        · rw [reported_goto_eq s.runs i t _ ht
            (by simp [RunCall.reported, RunCall.goto, hpc])]
          exact h.perm
        · exact rep_goto s.runs i t _ h.rep (by
            intro e' he'
            simp only [RunPc.report.injEq] at he'
            subst he'
            exact hcb)
    · simp at hs
  · simp at hs

theorem inv_stepReport (s s' : World Err Data) (i : Nat)
    (h : Inv s) (hs : stepReport s i = some s') : Inv s' := by
  unfold stepReport at hs
  split at hs
  · rename_i t ht
    split at hs
    · rename_i e hpc
      have hopen := open_of_holder s i t h ht (by simp [hpc, RunPc.holdsSlot])
      simp only [hopen, Bool.false_eq_true, if_false] at hs
      split at hs
      · rename_i hlt
        simp only [Option.some.injEq] at hs
        subst hs
        have hc := holders_goto s.runs i t RunPc.release ht
        simp [hpc, RunPc.holdsSlot] at hc
        have hcb := h.rep t (mem_of_getElem?_some _ _ _ ht) e hpc
        refine ⟨?_, h.loopLe, h.slotLe, h.capEq, ?_, ?_, ?_, h.routineLe,
          ?_, h.ret, h.noPanic, ?_, ?_⟩
        · have := h.slots
          simp only [holders] at *
          omega
        · simp [h.log]
        · simp only [List.length_append, List.length_singleton]
          omega
        · simpa [hopen] using h.closed
        · intro hr
          have := (h.routine hr).1
          simp [hopen] at this
        · have hp := filterMap_set_perm RunCall.reported s.runs i t (t.goto RunPc.release) e ht
            (by simp [RunCall.reported, hpc])
            (by simp [RunCall.reported, RunCall.goto, hcb])
          exact (List.Perm.append_right [e] h.perm).trans hp.symm
        · exact rep_goto s.runs i t _ h.rep (by simp)
      · simp at hs
    · simp at hs
  · simp at hs

theorem inv_stepHandoff (s s' : World Err Data) (i : Nat)
    (h : Inv s) (hs : stepHandoff s i = some s') : Inv s' := by
  unfold stepHandoff at hs
  split at hs
  · rename_i t ht
    split at hs
    · rename_i e hpc
      split at hs
      · rename_i hg
        obtain ⟨hopen, hempty, hrt⟩ := hg
        simp only [Option.some.injEq] at hs
        subst hs
        have hc := holders_goto s.runs i t RunPc.release ht
        simp [hpc, RunPc.holdsSlot] at hc
        have hcb := h.rep t (mem_of_getElem?_some _ _ _ ht) e hpc
        have hb : s.p.errChan.buf = [] := List.length_eq_zero.mp hempty
        refine ⟨?_, h.loopLe, h.slotLe, h.capEq, ?_, h.errLe, h.closed, h.routineLe,
          ?_, ?_, h.noPanic, ?_, ?_⟩
        · have := h.slots
          simp only [holders] at *
          omega
        · simp [h.log, hb]
        · intro hr
          exact absurd hr hrt
        · intro r hr
          exact absurd (h.ret r hr).1 hrt
        · have hp := filterMap_set_perm RunCall.reported s.runs i t (t.goto RunPc.release) e ht
            (by simp [RunCall.reported, hpc])
            (by simp [RunCall.reported, RunCall.goto, hcb])
          exact (List.Perm.append_right [e] h.perm).trans hp.symm
        · exact rep_goto s.runs i t _ h.rep (by simp)
      · simp at hs
    · simp at hs
  · simp at hs

theorem inv_stepRelease (s s' : World Err Data) (i : Nat)
    (h : Inv s) (hs : stepRelease s i = some s') : Inv s' := by
  unfold stepRelease at hs
  split at hs
  · rename_i t ht
    split at hs
    · rename_i hpc
      split at hs
      · rename_i b rest hbuf
        simp only [Option.some.injEq] at hs
        subst hs
        have hc := holders_goto s.runs i t RunPc.done ht
        simp [hpc, RunPc.holdsSlot] at hc
        have h1 := h.slots
        have h2 := h.slotLe
        simp only [hbuf, List.length_cons, holders] at h1 h2
        refine ⟨?_, h.loopLe, ?_, h.capEq, h.log, h.errLe, h.closed, h.routineLe,
          h.routine, h.ret, h.noPanic, ?_, ?_⟩
        · simp only [holders]
          omega
        · simp only
          omega
        · rw [reported_goto_eq s.runs i t _ ht
            (by simp [RunCall.reported, RunCall.goto, hpc])]
          exact h.perm
        · exact rep_goto s.runs i t _ h.rep (by simp)
      · simp at hs
    · simp at hs
  · simp at hs

theorem inv_stepWaitCall (s s' : World Err Data)
    (h : Inv s) (hs : stepWaitCall s = some s') : Inv s' := by
  unfold stepWaitCall at hs
  split at hs
  · rename_i hw
    simp only [Option.some.injEq] at hs
    subst hs
    refine ⟨?_, ?_, h.slotLe, h.capEq, h.log, h.errLe, ?_, h.routineLe,
      h.routine, ?_, h.noPanic, h.perm, h.rep⟩
    · simpa [holders, hw, WaitPc.acquired] using h.slots
    · intro i hi
      simp only [WaitPc.loop.injEq] at hi
      omega
    · simpa [hw, WaitPc.pastClose] using h.closed
    · intro r hr
      simp at hr
  · simp at hs

theorem inv_stepWaitAcquire (s s' : World Err Data)
    (h : Inv s) (hs : stepWaitAcquire s = some s') : Inv s' := by
  unfold stepWaitAcquire at hs
  split at hs
  · rename_i i hw
    split at hs
    · rename_i hg
      simp only [Option.some.injEq] at hs
      subst hs
      refine ⟨?_, ?_, ?_, h.capEq, h.log, h.errLe, ?_, h.routineLe,
        h.routine, ?_, h.noPanic, h.perm, h.rep⟩
      · have := h.slots
        simp only [holders, hw, WaitPc.acquired, pushSlot, List.length_append,
          List.length_singleton] at *
        omega
      · intro k hk
        simp only [WaitPc.loop.injEq, pushSlot] at *
        omega
      · simp only [pushSlot, List.length_append, List.length_singleton]
        omega
      · simpa [hw, WaitPc.pastClose, pushSlot] using h.closed
      · intro r hr
        simp at hr
    · simp at hs
  · simp at hs

theorem inv_stepWaitPass (s s' : World Err Data) (j : Nat)
    (h : Inv s) (hs : stepWaitPass s j = some s') : Inv s' := by
  unfold stepWaitPass at hs
  split at hs
  · rename_i i u hw hu
    split at hs
    · rename_i hpu
      split at hs
      · rename_i hg
        have := no_release_on_empty s j u h hu (by simp [hpu, RunPc.holdsSlot])
        omega
      · simp at hs
    · simp at hs
  · simp at hs

theorem inv_stepWaitLoopExit (s s' : World Err Data)
    (h : Inv s) (hs : stepWaitLoopExit s = some s') : Inv s' := by
  unfold stepWaitLoopExit at hs
  split at hs
  · rename_i i hw
    split at hs
    · simp at hs
    · rename_i hg
      simp only [Option.some.injEq] at hs
      subst hs
      have hi := h.loopLe i hw
      refine ⟨?_, ?_, h.slotLe, h.capEq, h.log, h.errLe, ?_, h.routineLe,
        h.routine, ?_, h.noPanic, h.perm, h.rep⟩
      · have := h.slots
        simp only [holders, hw, WaitPc.acquired] at *
        omega
      · intro k hk
        simp at hk
      · simpa [hw, WaitPc.pastClose] using h.closed
      · intro r hr
        simp at hr
  · simp at hs

theorem inv_stepWaitClose (s s' : World Err Data)
    (h : Inv s) (hs : stepWaitClose s = some s') : Inv s' := by
  unfold stepWaitClose at hs
  split at hs
  · rename_i hw
    have hopen : s.p.errChan.closed = false := by
      simpa [hw, WaitPc.pastClose] using h.closed
    simp only [hopen, Bool.false_eq_true, if_false, Option.some.injEq] at hs
    subst hs
    refine ⟨?_, ?_, h.slotLe, h.capEq, h.log, h.errLe, ?_, h.routineLe,
      ?_, ?_, h.noPanic, h.perm, h.rep⟩
    · simpa [holders, hw, WaitPc.acquired] using h.slots
    · intro k hk
      simp at hk
    · simp [WaitPc.pastClose]
    · intro hr
      have := (h.routine hr).1
      simp [hopen] at this
    · intro r hr
      simp at hr
  · simp at hs

theorem inv_stepWaitReturn (s s' : World Err Data)
    (h : Inv s) (hs : stepWaitReturn s = some s') : Inv s' := by
  unfold stepWaitReturn at hs
  split at hs
  · rename_i hw
    split at hs
    · rename_i hr0
      simp only [Option.some.injEq] at hs
      subst hs
      refine ⟨?_, ?_, h.slotLe, h.capEq, h.log, h.errLe, ?_, h.routineLe,
        h.routine, ?_, h.noPanic, h.perm, h.rep⟩
      · simpa [holders, hw, WaitPc.acquired] using h.slots
      · intro k hk
        simp at hk
      · simpa [hw, WaitPc.pastClose] using h.closed
      · intro r hr
        simp only [WaitPc.returned.injEq] at hr
        exact ⟨hr0, hr.symm⟩
    · simp at hs
  · simp at hs

theorem inv_stepCollect (s s' : World Err Data)
    (h : Inv s) (hs : stepCollect s = some s') : Inv s' := by
  unfold stepCollect at hs
  split at hs
  · simp at hs
  · rename_i hrt
    split at hs
    · rename_i e rest hbuf
      simp only [Option.some.injEq] at hs
      subst hs
      have h1 := h.errLe
      simp only [hbuf, List.length_cons] at h1
      refine ⟨h.slots, h.loopLe, h.slotLe, h.capEq, ?_, ?_, h.closed, h.routineLe,
        ?_, ?_, h.noPanic, h.perm, h.rep⟩
      · simp [h.log, hbuf]
      · simp only
        omega
      · intro hr
        exact absurd hr hrt
      · intro r hr
        exact absurd (h.ret r hr).1 hrt
    · simp at hs

theorem inv_stepCollectorExit (s s' : World Err Data)
    (h : Inv s) (hs : stepCollectorExit s = some s') : Inv s' := by
  unfold stepCollectorExit at hs
  split at hs
  · simp at hs
  · rename_i hrt
    split at hs
    · rename_i hbuf
      split at hs
      · rename_i hcl
        simp only [Option.some.injEq] at hs
        subst hs
        have h1 := h.routineLe
        refine ⟨h.slots, h.loopLe, h.slotLe, h.capEq, h.log, h.errLe, h.closed, ?_,
          ?_, ?_, h.noPanic, h.perm, h.rep⟩
        · simp only
          omega
        · intro _
          exact ⟨hcl, hbuf⟩
        · intro r hr
          exact absurd (h.ret r hr).1 hrt
      · simp at hs
    · simp at hs

theorem inv_step (s s' : World Err Data) (a : Action Err Data)
    (h : Inv s) (hs : step s a = some s') : Inv s' := by
  unfold step at hs
  split at hs
  · simp at hs
  · cases a with
    | call cb d => exact inv_stepCall s s' cb d h hs
    | acquire i => exact inv_stepAcquire s s' i h hs
    | pass i j => exact inv_stepPass s s' i j h hs
    | finish i => exact inv_stepFinish s s' i h hs
    | report i => exact inv_stepReport s s' i h hs
    | handoff i => exact inv_stepHandoff s s' i h hs
    | release i => exact inv_stepRelease s s' i h hs
    | waitCall => exact inv_stepWaitCall s s' h hs
    | waitAcquire => exact inv_stepWaitAcquire s s' h hs
    | waitPass j => exact inv_stepWaitPass s s' j h hs
    | waitLoopExit => exact inv_stepWaitLoopExit s s' h hs
    | waitClose => exact inv_stepWaitClose s s' h hs
    | waitReturn => exact inv_stepWaitReturn s s' h hs
    | collect => exact inv_stepCollect s s' h hs
    | collectorExit => exact inv_stepCollectorExit s s' h hs

theorem inv_exec (acts : List (Action Err Data)) (s s' : World Err Data)
    (h : Inv s) (hs : exec s acts = some s') : Inv s' := by
  induction acts generalizing s with
  | nil =>
    simp only [exec, Option.some.injEq] at hs
    exact hs ▸ h
  | cons a rest ih =>
    simp only [exec] at hs
    split at hs
    · rename_i s1 h1
      exact ih s1 (inv_step s s1 a h h1) hs
    · simp at hs

/-- NewFanOut succeeds exactly on the sizes make accepts. -/
theorem newFanOut_isSome (Err : Type) (limit : Nat) (size : Int) :
    (NewFanOut Err limit size).isSome = true ↔ 0 ≤ size ∧ size.toNat ≤ limit := by
  unfold NewFanOut
  split
  · rename_i h
    simp only [Option.isSome_none, Bool.false_eq_true, false_iff]
    omega
  · rename_i h
    simp only [Option.isSome_some, true_iff]
    omega

theorem boot_eq (limit : Nat) (size : Int) (w : World Err Data)
    (h : boot Err Data limit size = some w) :
    0 ≤ size ∧ w =
      { p := { errChan := makeChan Err size.toNat, size := makeChan Bool size.toNat,
               errs := [], routine := 1 },
        runs := [], wait := WaitPc.idle, panicked := false, sent := [], calls := [] } := by
  unfold boot NewFanOut at h
  split at h
  · simp at h
  · rename_i hs
    simp only [Option.map_some', Option.some.injEq, FanOut.start] at h
    exact ⟨by omega, h.symm⟩

theorem inv_boot (limit : Nat) (size : Int) (w : World Err Data)
    (h : boot Err Data limit size = some w) :
    Inv w := by
  obtain ⟨_, rfl⟩ := boot_eq limit size w h
  refine ⟨?_, ?_, ?_, rfl, rfl, ?_, rfl, ?_, ?_, ?_, rfl, ?_, ?_⟩ <;>
    simp [holders, makeChan, WaitPc.acquired]

theorem inv_reachable (limit : Nat) (size : Int) (s : World Err Data)
    (h : Reachable limit size s) : Inv s := by
  obtain ⟨w, acts, hb, he⟩ := h
  exact inv_exec acts w s (inv_boot limit size w hb) he

theorem cap_step (s s' : World Err Data) (a : Action Err Data)
    (hs : step s a = some s') :
    s'.p.size.cap = s.p.size.cap ∧ s'.p.errChan.cap = s.p.errChan.cap := by
  unfold step at hs
  split at hs
  · simp at hs
  · cases a <;>
      simp only [stepCall, stepAcquire, stepPass, stepFinish, stepReport, stepHandoff,
        stepRelease, stepWaitCall, stepWaitAcquire, stepWaitPass, stepWaitLoopExit,
        stepWaitClose, stepWaitReturn, stepCollect, stepCollectorExit] at hs <;>
      (repeat' (split at hs)) <;>
      first
        | (simp at hs; done)
        | (simp only [Option.some.injEq] at hs; subst hs; simp [pushSlot])

theorem cap_exec (acts : List (Action Err Data)) (s s' : World Err Data)
    (hs : exec s acts = some s') :
    s'.p.size.cap = s.p.size.cap ∧ s'.p.errChan.cap = s.p.errChan.cap := by
  induction acts generalizing s with
  | nil =>
    simp only [exec, Option.some.injEq] at hs
    subst hs
    exact ⟨rfl, rfl⟩
  | cons a rest ih =>
    simp only [exec] at hs
    split at hs
    · rename_i s1 h1
      have h2 := cap_step s s1 a h1
      have h3 := ih s1 hs
      exact ⟨h3.1.trans h2.1, h3.2.trans h2.2⟩
    · simp at hs

theorem cap_reachable (limit N : Nat) (s : World Err Data)
    (h : Reachable limit (N : Int) s) :
    s.p.size.cap = N ∧ s.p.errChan.cap = N := by
  obtain ⟨w, acts, hb, he⟩ := h
  obtain ⟨_, rfl⟩ := boot_eq _ _ w hb
  have := cap_exec acts _ s he
  simpa [makeChan] using this

theorem effect_step (s s' : World Err Data) (a : Action Err Data)
    (h : Inv s) (hs : step s a = some s') : Effect s a s' := by
  unfold step at hs
  split at hs
  · simp at hs
  · cases a with
    | call cb d =>
      simp only [stepCall, Option.some.injEq] at hs
      subst hs
      exact Effect.enter cb d rfl rfl rfl rfl rfl rfl
    | acquire i =>
      simp only [stepAcquire] at hs
      split at hs
      · rename_i t ht
        split at hs
        · rename_i hpc
          split at hs
          · rename_i hlt
            simp only [Option.some.injEq] at hs
            subst hs
            exact Effect.grant i t ht hpc hlt rfl rfl rfl
          · simp at hs
        · simp at hs
      · simp at hs
    | pass i j =>
      simp only [stepPass] at hs
      split at hs
      · rename_i t u ht hu
        split at hs
        · rename_i hpt hpu
          split at hs
          · rename_i h0
            have := no_release_on_empty s j u h hu (by simp [hpu, RunPc.holdsSlot])
            omega
          · simp at hs
        · simp at hs
      · simp at hs
    | finish i =>
      simp only [stepFinish] at hs
      split at hs
      · rename_i t ht
        split at hs
        · rename_i hpc
          split at hs
          · rename_i hcb
            simp only [Option.some.injEq] at hs
            subst hs
            exact Effect.move i t RunPc.release ht (by simp [hpc, RunPc.holdsSlot]) rfl rfl rfl
              (by simp [RunCall.reported, RunCall.goto, hpc, hcb]) rfl rfl
          · rename_i e hcb
            simp only [Option.some.injEq] at hs
            subst hs
            exact Effect.move i t (RunPc.report e) ht (by simp [hpc, RunPc.holdsSlot]) rfl rfl
              rfl (by simp [RunCall.reported, RunCall.goto, hpc]) rfl rfl
        · simp at hs
      · simp at hs
    | report i =>
      simp only [stepReport] at hs
      split at hs
      · rename_i t ht
        split at hs
        · rename_i e hpc
          split at hs
          · simp only [Option.some.injEq] at hs
            subst hs
            exact Effect.quiet rfl rfl rfl
          · split at hs
            · simp only [Option.some.injEq] at hs
              subst hs
              exact Effect.send i t e ht hpc
                (h.rep t (mem_of_getElem?_some _ _ _ ht) e hpc) rfl rfl rfl
            · simp at hs
        · simp at hs
      · simp at hs
    | handoff i =>
      simp only [stepHandoff] at hs
      split at hs
      · rename_i t ht
        split at hs
        · rename_i e hpc
          split at hs
          · simp only [Option.some.injEq] at hs
            subst hs
            exact Effect.send i t e ht hpc
              (h.rep t (mem_of_getElem?_some _ _ _ ht) e hpc) rfl rfl rfl
          · simp at hs
        · simp at hs
      · simp at hs
    | release i =>
      simp only [stepRelease] at hs
      split at hs
      · rename_i t ht
        split at hs
        · rename_i hpc
          split at hs
          · simp only [Option.some.injEq] at hs
            subst hs
            exact Effect.move i t RunPc.done ht (by simp [hpc, RunPc.holdsSlot]) rfl rfl rfl
              (by simp [RunCall.reported, RunCall.goto, hpc]) rfl rfl
          · simp at hs
        · simp at hs
      · simp at hs
    | waitPass j =>
      simp only [stepWaitPass] at hs
      split at hs
      · rename_i i u hw hu
        split at hs
        · rename_i hpu
          split at hs
          · rename_i hg
            have := no_release_on_empty s j u h hu (by simp [hpu, RunPc.holdsSlot])
            omega
          · simp at hs
        · simp at hs
      · simp at hs
    | waitCall =>
      simp only [stepWaitCall] at hs
      (repeat' (split at hs)) <;>
      first
        | (simp at hs; done)
        | (simp only [Option.some.injEq] at hs; subst hs; exact Effect.quiet rfl rfl rfl)
    | waitAcquire =>
      simp only [stepWaitAcquire] at hs
      (repeat' (split at hs)) <;>
      first
        | (simp at hs; done)
        | (simp only [Option.some.injEq] at hs; subst hs; exact Effect.quiet rfl rfl rfl)
    | waitLoopExit =>
      simp only [stepWaitLoopExit] at hs
      (repeat' (split at hs)) <;>
      first
        | (simp at hs; done)
        | (simp only [Option.some.injEq] at hs; subst hs; exact Effect.quiet rfl rfl rfl)
    | waitClose =>
      simp only [stepWaitClose] at hs
      (repeat' (split at hs)) <;>
      first
        | (simp at hs; done)
        | (simp only [Option.some.injEq] at hs; subst hs; exact Effect.quiet rfl rfl rfl)
    | waitReturn =>
      simp only [stepWaitReturn] at hs
      (repeat' (split at hs)) <;>
      first
        | (simp at hs; done)
        | (simp only [Option.some.injEq] at hs; subst hs; exact Effect.quiet rfl rfl rfl)
    | collect =>
      simp only [stepCollect] at hs
      (repeat' (split at hs)) <;>
      first
        | (simp at hs; done)
        | (simp only [Option.some.injEq] at hs; subst hs; exact Effect.quiet rfl rfl rfl)
    | collectorExit =>
      simp only [stepCollectorExit] at hs
      (repeat' (split at hs)) <;>
      first
        | (simp at hs; done)
        | (simp only [Option.some.injEq] at hs; subst hs; exact Effect.quiet rfl rfl rfl)

/-- What one step does to Wait and to the collector's slice. -/
theorem wait_step (s s' : World Err Data) (a : Action Err Data)
    (h : Inv s) (hs : step s a = some s') :
    (s.wait.drained s.p.size.cap = true → s'.wait.drained s'.p.size.cap = true) ∧
    (∀ r, s.wait = WaitPc.returned r → s'.wait = WaitPc.returned r ∧ s'.p.errs = s.p.errs) := by
  have hret : ∀ r, s.wait = WaitPc.returned r → s.p.routine = 0 := fun r hr => (h.ret r hr).1
  unfold step at hs
  split at hs
  · simp at hs
  · cases a <;>
      simp only [stepCall, stepAcquire, stepPass, stepFinish, stepReport, stepHandoff,
        stepRelease, stepWaitCall, stepWaitAcquire, stepWaitPass, stepWaitLoopExit,
        stepWaitClose, stepWaitReturn, stepCollect, stepCollectorExit] at hs <;>
      (repeat' (split at hs)) <;>
      first
        | (simp at hs; done)
        | (simp only [Option.some.injEq] at hs
           subst hs
           refine ⟨?_, ?_⟩
           · simp_all [WaitPc.drained, pushSlot]
             try omega
           · intro r hr
             have := hret r hr
             simp_all [pushSlot])

theorem returned_facts (s : World Err Data) (r : Option (List Err)) (h : Inv s)
    (hr : s.wait = WaitPc.returned r) :
    r = waitResult s.sent ∧ s.p.errChan.buf = [] ∧ s.sent = s.p.errs := by
  obtain ⟨h0, hres⟩ := h.ret r hr
  have hb := (h.routine h0).2
  have hl := h.log
  rw [hb, List.append_nil] at hl
  exact ⟨by rw [hl]; exact hres, hb, hl⟩

theorem drained_facts (s : World Err Data) (h : Inv s)
    (hd : s.wait.drained s.p.size.cap = true) :
    holders s = 0 ∧ s.p.size.buf.length = s.p.size.cap := by
  have h1 := h.slots
  have h2 := h.slotLe
  have h3 : s.wait.acquired s.p.size.cap = s.p.size.cap := by
    cases hw : s.wait with
    | idle => simp [hw, WaitPc.drained] at hd
    | loop i =>
      have := h.loopLe i hw
      simp only [hw, WaitPc.drained, decide_eq_true_eq] at hd
      simp only [WaitPc.acquired]
      omega
    | close => rfl
    | join => rfl
    | returned r => rfl
  omega

theorem idle_or_done_of_holders (s : World Err Data) (h0 : holders s = 0) :
    ∀ t ∈ s.runs, t.pc = RunPc.acquire ∨ t.pc = RunPc.done := by
  intro t ht
  have := (List.countP_eq_zero.mp h0) t ht
  cases hp : t.pc <;> simp [RunCall.holds, RunPc.holdsSlot, hp] at this ⊢

theorem waitResult_eq_none (l : List Err) : waitResult l = none ↔ l = [] := by
  unfold waitResult
  split
  · rename_i h
    simp [List.length_eq_zero.mp h]
  · rename_i h
    simp only [reduceCtorEq, false_iff]
    intro hl
    exact h (by simp [hl])

theorem waitResult_getD (l : List Err) : (waitResult l).getD [] = l := by
  unfold waitResult
  split
  · rename_i h
    simp [List.length_eq_zero.mp h]
  · simp

theorem invSeq_step (s s' : World Err Data) (a : Action Err Data)
    (h : Inv s) (hq : InvSeq s) (hok : seqOk s a = true) (hs : step s a = some s') :
    InvSeq s' := by
  cases effect_step s s' a h hs with
  | quiet hr hse hc =>
    exact ⟨by rw [hr]; exact hq.serial, by rw [hse, hr]; exact hq.order⟩
  | enter cb d ha hr hse hc hp hw =>
    subst ha
    simp only [seqOk, List.all_eq_true] at hok
    refine ⟨by rw [hr]; exact abl_concat _ _ hok, ?_⟩
    rw [hse, hr, List.filterMap_append]
    simp [RunCall.reported, hq.order]
  | grant i t ht hpc hfree hr hse hc =>
    have hnd : t.pc.isDone = false := by simp [hpc, RunPc.isDone]
    refine ⟨by rw [hr]; exact abl_set _ i t _ hq.serial ht hnd, ?_⟩
    rw [hse, hr, reported_goto_eq _ i t _ ht (by simp [RunCall.reported, RunCall.goto, hpc])]
    exact hq.order
  | move i t pc ht hpc hr hse hc hf hn _ =>
    have hnd : t.pc.isDone = false := by
      cases hp : t.pc <;> simp [hp, RunPc.isDone, RunPc.holdsSlot] at *
    refine ⟨by rw [hr]; exact abl_set _ i t _ hq.serial ht hnd, ?_⟩
    rw [hse, hr, reported_goto_eq _ i t _ ht hf]
    exact hq.order
  | send i t e ht hpc hcb hr hse hc =>
    have hnd : t.pc.isDone = false := by simp [hpc, RunPc.isDone]
    refine ⟨by rw [hr]; exact abl_set _ i t _ hq.serial ht hnd, ?_⟩
    rw [hse, hr, abl_filterMap_set RunCall.reported _ i t _ e hq.serial ht hnd
      (by simp [RunCall.reported, RunCall.goto, hcb]),
      filterMap_dropLast_of_last RunCall.reported _ i t hq.serial ht hnd
        (by simp [RunCall.reported, hpc]), hq.order]

theorem invSeq_exec (acts : List (Action Err Data)) (s s' : World Err Data)
    (h : Inv s) (hq : InvSeq s) (hs : execSeq s acts = some s') :
    InvSeq s' ∧ exec s acts = some s' := by
  induction acts generalizing s with
  | nil =>
    simp only [execSeq, Option.some.injEq] at hs
    subst hs
    exact ⟨hq, rfl⟩
  | cons a rest ih =>
    simp only [execSeq] at hs
    split at hs
    · rename_i hok
      split at hs
      · rename_i s1 h1
        have := ih s1 (inv_step s s1 a h h1) (invSeq_step s s1 a h hq hok h1) hs
        refine ⟨this.1, ?_⟩
        simp only [exec, h1]
        exact this.2
      · simp at hs
    · simp at hs

theorem invSeq_reachable (limit : Nat) (size : Int) (s : World Err Data)
    (h : ReachableSeq limit size s) : InvSeq s ∧ Reachable limit size s := by
  obtain ⟨w, acts, hb, he⟩ := h
  have hi := inv_boot limit size w hb
  have hq : InvSeq w := by
    obtain ⟨_, rfl⟩ := boot_eq limit size w hb
    exact ⟨by simp [AllButLastDone], by simp⟩
  have := invSeq_exec acts w s hi hq he
  exact ⟨this.1, w, acts, hb, this.2⟩

theorem drained_step (s s' : World Err Data) (a : Action Err Data)
    (h : Inv s) (hd : s.wait.drained s.p.size.cap = true) (hs : step s a = some s') :
    s'.wait.drained s'.p.size.cap = true ∧ s'.calls = s.calls ∧ s'.sent = s.sent ∧
    (∃ extra, s'.runs = s.runs ++ extra ∧ ∀ t ∈ extra, t.pc = RunPc.acquire) ∧
    (∀ r, s.wait = WaitPc.returned r → s'.wait = WaitPc.returned r ∧ s'.p.errs = s.p.errs) := by
  obtain ⟨hw1, hw2⟩ := wait_step s s' a h hs
  obtain ⟨h0, hfull⟩ := drained_facts s h hd
  refine ⟨hw1 hd, ?_⟩
  have hno : ∀ (i : Nat) (t : RunCall Err Data),
      s.runs[i]? = some t → t.pc.holdsSlot = true → False := by
    intro i t ht hp
    have := countP_pos_of_getElem? RunCall.holds s.runs i t ht (by simpa [RunCall.holds] using hp)
    simp only [holders] at h0
    omega
  cases effect_step s s' a h hs with
  | quiet hr hse hc => exact ⟨hc, hse, ⟨[], by simp [hr], by simp⟩, hw2⟩
  | enter cb d ha hr hse hc hp hw =>
    exact ⟨hc, hse, ⟨_, hr, by simp⟩, hw2⟩
  | grant i t ht hpc hfree hr hse hc => omega
  | move i t pc ht hpc hr hse hc hf hn hq => exact (hno i t ht hpc).elim
  | send i t e ht hpc hcb hr hse hc =>
    exact (hno i t ht (by simp [hpc, RunPc.holdsSlot])).elim

theorem drained_exec (acts : List (Action Err Data)) (s s' : World Err Data)
    (h : Inv s) (hd : s.wait.drained s.p.size.cap = true) (hs : exec s acts = some s') :
    s'.wait.drained s'.p.size.cap = true ∧ s'.calls = s.calls ∧ s'.sent = s.sent ∧
    (∃ extra, s'.runs = s.runs ++ extra ∧ ∀ t ∈ extra, t.pc = RunPc.acquire) ∧
    (∀ r, s.wait = WaitPc.returned r → s'.wait = WaitPc.returned r ∧ s'.p.errs = s.p.errs) := by
  induction acts generalizing s with
  | nil =>
    simp only [exec, Option.some.injEq] at hs
    subst hs
    exact ⟨hd, rfl, rfl, ⟨[], by simp, by simp⟩, fun r hr => ⟨hr, rfl⟩⟩
  | cons a rest ih =>
    simp only [exec] at hs
    split at hs
    · rename_i s1 h1
      obtain ⟨a1, a2, a3, ⟨x1, a4, a5⟩, a6⟩ := drained_step s s1 a h hd h1
      obtain ⟨b1, b2, b3, ⟨x2, b4, b5⟩, b6⟩ := ih s1 (inv_step s s1 a h h1) a1 hs
      refine ⟨b1, b2.trans a2, b3.trans a3, ⟨x1 ++ x2, ?_, ?_⟩, ?_⟩
      · rw [b4, a4, List.append_assoc]
      · intro t ht
        rcases List.mem_append.mp ht with ht | ht
        · exact a5 t ht
        · exact b5 t ht
      · intro r hr
        obtain ⟨c1, c2⟩ := a6 r hr
        obtain ⟨c3, c4⟩ := b6 r c1
        exact ⟨c3, c4.trans c2⟩
    · simp at hs

theorem zero_step (s s' : World Err Data) (a : Action Err Data)
    (h : Inv s) (hcap : s.p.size.cap = 0)
    (hz : (∀ t ∈ s.runs, t.pc = RunPc.acquire) ∧ s.calls = [])
    (hs : step s a = some s') :
    (∀ t ∈ s'.runs, t.pc = RunPc.acquire) ∧ s'.calls = [] := by
  have hno : ∀ (i : Nat) (t : RunCall Err Data),
      s.runs[i]? = some t → t.pc.holdsSlot = true → False := by
    intro i t ht hp
    have := hz.1 t (mem_of_getElem?_some _ _ _ ht)
    simp [this, RunPc.holdsSlot] at hp
  cases effect_step s s' a h hs with
  | quiet hr hse hc => exact ⟨by rw [hr]; exact hz.1, by rw [hc]; exact hz.2⟩
  | enter cb d ha hr hse hc hp hw =>
    refine ⟨?_, by rw [hc]; exact hz.2⟩
    intro t ht
    rw [hr] at ht
    rcases List.mem_append.mp ht with ht | ht
    · exact hz.1 t ht
    · simp only [List.mem_singleton] at ht
      subst ht
      rfl
  | grant i t ht hpc hfree hr hse hc => omega
  | move i t pc ht hpc hr hse hc hf hn hq => exact (hno i t ht hpc).elim
  | send i t e ht hpc hcb hr hse hc =>
    exact (hno i t ht (by simp [hpc, RunPc.holdsSlot])).elim

theorem zero_exec (acts : List (Action Err Data)) (s s' : World Err Data)
    (h : Inv s) (hcap : s.p.size.cap = 0)
    (hz : (∀ t ∈ s.runs, t.pc = RunPc.acquire) ∧ s.calls = [])
    (hs : exec s acts = some s') :
    (∀ t ∈ s'.runs, t.pc = RunPc.acquire) ∧ s'.calls = [] := by
  induction acts generalizing s with
  | nil =>
    simp only [exec, Option.some.injEq] at hs
    subst hs
    exact hz
  | cons a rest ih =>
    simp only [exec] at hs
    split at hs
    · rename_i s1 h1
      exact ih s1 (inv_step s s1 a h h1) ((cap_step s s1 a h1).1.trans hcap)
        (zero_step s s1 a h hcap hz h1) hs
    · simp at hs

theorem last_get (l : List (RunCall Err Data)) (t : RunCall Err Data) :
    (l ++ [t])[l.length]? = some t := by
  simp

theorem last_set (l : List (RunCall Err Data)) (t u : RunCall Err Data) :
    (l ++ [t]).set l.length u = l ++ [u] := by
  induction l with
  | nil => rfl
  | cons a rest ih => simp [ih]

theorem exec_cons_of_step (s s1 : World Err Data) (a : Action Err Data)
    (rest : List (Action Err Data)) (h : step s a = some s1) :
    exec s (a :: rest) = exec s1 rest := by
  simp [exec, h]

theorem waitAcquire_loop (k : Nat) (s : World Err Data) (i : Nat)
    (rest : List (Action Err Data)) (h : Inv s) (hw : s.wait = WaitPc.loop i)
    (h0 : holders s = 0) (hk : i + k = s.p.size.cap) :
    ∃ s1, exec s (List.replicate k Action.waitAcquire ++ rest) = exec s1 rest ∧ Inv s1 ∧
      s1.wait = WaitPc.loop s.p.size.cap ∧ s1.runs = s.runs ∧ s1.sent = s.sent ∧
      s1.p.routine = s.p.routine ∧ s1.p.size.cap = s.p.size.cap ∧
      s1.p.errChan = s.p.errChan := by
  induction k generalizing s i with
  | zero =>
    refine ⟨s, rfl, h, ?_, rfl, rfl, rfl, rfl, rfl⟩
    rw [hw]
    simp only [Nat.add_zero] at hk
    rw [hk]
  | succ k ih =>
    have hsl := h.slots
    rw [h0, hw] at hsl
    simp only [WaitPc.acquired, Nat.zero_add] at hsl
    have hstep : step s Action.waitAcquire
        = some { s with p := pushSlot s.p, wait := WaitPc.loop (i + 1) } := by
      have h1 : i < s.p.size.cap := by omega
      have h2 : s.p.size.buf.length < s.p.size.cap := by omega
      simp [step, stepWaitAcquire, h.noPanic, hw, h1, h2]
    obtain ⟨s1, e1, e2, e3, e4, e5, e6, e7, e8⟩ :=
      ih { s with p := pushSlot s.p, wait := WaitPc.loop (i + 1) } (i + 1)
        (inv_step _ _ _ h hstep) rfl h0 (by simp only [pushSlot]; omega)
    refine ⟨s1, ?_, e2, e3, e4, e5, e6, e7, e8⟩
    rw [List.replicate_succ, List.cons_append, exec_cons_of_step _ _ _ _ hstep]
    exact e1

theorem collect_loop (n : Nat) (s : World Err Data) (rest : List (Action Err Data))
    (h : Inv s) (hrt : s.p.routine ≠ 0) (hn : s.p.errChan.buf.length = n) :
    ∃ s1, exec s (List.replicate n Action.collect ++ rest) = exec s1 rest ∧ Inv s1 ∧
      s1.wait = s.wait ∧ s1.runs = s.runs ∧ s1.sent = s.sent ∧
      s1.p.routine = s.p.routine ∧ s1.p.errChan.buf = [] ∧
      s1.p.errChan.closed = s.p.errChan.closed := by
  induction n generalizing s with
  | zero =>
    exact ⟨s, rfl, h, rfl, rfl, rfl, rfl, List.length_eq_zero.mp hn, rfl⟩
  | succ n ih =>
    cases hbuf : s.p.errChan.buf with
    | nil => simp [hbuf] at hn
    | cons e tl =>
      have hstep : step s Action.collect
          = some { s with p := { s.p with errChan := { s.p.errChan with buf := tl },
                                          errs := s.p.errs ++ [e] } } := by
        simp [step, stepCollect, h.noPanic, hrt, hbuf]
      obtain ⟨s1, e1, e2, e3, e4, e5, e6, e7, e8⟩ :=
        ih _ (inv_step _ _ _ h hstep) hrt (by
          simp only [hbuf, List.length_cons] at hn
          simp only
          omega)
      refine ⟨s1, ?_, e2, e3, e4, e5, e6, e7, e8⟩
      rw [List.replicate_succ, List.cons_append, exec_cons_of_step _ _ _ _ hstep]
      exact e1

/-- Wait, called when no Run call holds a slot, runs to its return. -/
theorem wait_returns (s : World Err Data) (h : Inv s) (hw : s.wait = WaitPc.idle)
    (h0 : holders s = 0) :
    ∃ s', Wait s = some s' ∧ s'.wait = WaitPc.returned (waitResult s.sent) ∧
      s'.runs = s.runs ∧ s'.sent = s.sent ∧ Inv s' := by
  have hnp := h.noPanic
  -- Wait is called
  have hstep1 : step s Action.waitCall = some { s with wait := WaitPc.loop 0 } := by
    simp [step, stepWaitCall, hnp, hw]
  have hi1 := inv_step _ _ _ h hstep1
  -- the loop
  obtain ⟨s2, e2, hi2, w2, r2, t2, rt2, c2, ec2⟩ :=
    waitAcquire_loop s.p.size.cap { s with wait := WaitPc.loop 0 } 0
      (Action.waitLoopExit :: Action.waitClose ::
        (List.replicate s.p.errChan.buf.length Action.collect ++
          [Action.collectorExit, Action.waitReturn]))
      hi1 rfl h0 (by simp)
  simp only at w2 r2 t2 rt2 c2 ec2
  -- the loop ends
  have hstep3 : step s2 Action.waitLoopExit = some { s2 with wait := WaitPc.close } := by
    simp [step, stepWaitLoopExit, hi2.noPanic, w2, c2]
  have hi3 := inv_step _ _ _ hi2 hstep3
  -- close
  have hcl3 : s2.p.errChan.closed = false := by
    simpa [w2, WaitPc.pastClose] using hi2.closed
  have hstep4 : step { s2 with wait := WaitPc.close } Action.waitClose
      = some { s2 with p := { s2.p with errChan := { s2.p.errChan with closed := true } },
                       wait := WaitPc.join } := by
    simp [step, stepWaitClose, hi2.noPanic, hcl3]
  have hi4 := inv_step _ _ _ hi3 hstep4
  have hrt : s2.p.routine ≠ 0 := by
    intro hz
    have := (hi2.routine hz).1
    simp [hcl3] at this
  -- the collector drains the buffer
  obtain ⟨s5, e5, hi5, w5, r5, t5, rt5, b5, cl5⟩ :=
    collect_loop s.p.errChan.buf.length
      { s2 with p := { s2.p with errChan := { s2.p.errChan with closed := true } },
                wait := WaitPc.join }
      [Action.collectorExit, Action.waitReturn] hi4 hrt (by simp only; rw [ec2])
  simp only at w5 r5 t5 rt5 cl5
  have hrt5 : s5.p.routine ≠ 0 := by rw [rt5]; exact hrt
  -- the collector ends
  have hstep6 : step s5 Action.collectorExit
      = some { s5 with p := { s5.p with routine := s5.p.routine - 1 } } := by
    simp [step, stepCollectorExit, hi5.noPanic, hrt5, b5, cl5]
  have hi6 := inv_step _ _ _ hi5 hstep6
  have hr6 : s5.p.routine - 1 = 0 := by
    have := hi5.routineLe
    omega
  -- Wait returns
  have hstep7 : step { s5 with p := { s5.p with routine := s5.p.routine - 1 } }
      Action.waitReturn
      = some { s5 with p := { s5.p with routine := s5.p.routine - 1 },
                       wait := WaitPc.returned (waitResult s5.p.errs) } := by
    simp [step, stepWaitReturn, hi5.noPanic, w5, hr6]
  have hi7 := inv_step _ _ _ hi6 hstep7
  have hres := (returned_facts _ _ hi7 rfl).1
  simp only at hres
  refine ⟨_, ?_, ?_, ?_, ?_, hi7⟩
  · unfold Wait waitSchedule
    rw [exec_cons_of_step _ _ _ _ hstep1, e2, exec_cons_of_step _ _ _ _ hstep3,
      exec_cons_of_step _ _ _ _ hstep4, e5, exec_cons_of_step _ _ _ _ hstep6,
      exec_cons_of_step _ _ _ _ hstep7]
    rfl
  · simp only
    rw [hres, t5, t2]
  · simp only
    rw [r5, r2]
  · simp only
    rw [t5, t2]

theorem getElem?_set_same {α : Type} (l : List α) (i : Nat) (a b : α)
    (h : l[i]? = some a) : (l.set i b)[i]? = some b := by
  induction l generalizing i with
  | nil => simp at h
  | cons x xs ih =>
    cases i with
    | zero => simp
    | succ n =>
      simp at h
      simpa using ih n h

theorem invoked_goto (l : List (RunCall Err Data)) (i j : Nat) (t : RunCall Err Data)
    (pc : RunPc Err) (ht : l[i]? = some t) :
    invoked (l.set i (t.goto pc)) j =
      if i = j then (if pc.isAcquire then [] else [(i, t.data)]) else invoked l j := by
  unfold invoked
  by_cases hij : i = j
  · subst hij
    simp [getElem?_set_same l i t _ ht, RunCall.goto]
  · simp [List.getElem?_set_ne hij, hij]

theorem callsOnce_step (s s' : World Err Data) (a : Action Err Data)
    (h : Inv s) (hc : CallsOnce s) (hs : step s a = some s') : CallsOnce s' := by
  intro j
  have hj := hc j
  cases effect_step s s' a h hs with
  | quiet hr hse hcl => rw [hcl, hr]; exact hj
  | enter cb d ha hr hse hcl hp hw =>
    rw [hcl, hr, hj]
    unfold invoked
    rcases Nat.lt_trichotomy j s.runs.length with hlt | heq | hgt
    · rw [List.getElem?_append_left hlt]
    · subst heq
      rw [last_get, List.getElem?_eq_none (Nat.le_refl _)]
      simp [RunPc.isAcquire]
    · rw [List.getElem?_eq_none (Nat.le_of_lt hgt), List.getElem?_eq_none (by simp; omega)]
  | grant i t ht hpc hfree hr hse hcl =>
    rw [hcl, hr, invoked_goto _ i j t _ ht, List.filter_append, hj]
    by_cases hij : i = j
    · subst hij
      simp [invoked, ht, hpc, RunPc.isAcquire]
    · simp [hij]
  | move i t pc ht hpc hr hse hcl hf hn hq =>
    rw [hcl, hr, invoked_goto _ i j t _ ht, hj]
    by_cases hij : i = j
    · subst hij
      have : t.pc.isAcquire = false := by
        cases hp : t.pc <;> simp [hp, RunPc.isAcquire, RunPc.holdsSlot] at *
      simp [invoked, ht, this, hq]
    · simp [hij]
  | send i t e ht hpc hcb hr hse hcl =>
    rw [hcl, hr, invoked_goto _ i j t _ ht, hj]
    by_cases hij : i = j
    · subst hij
      simp [invoked, ht, hpc, RunPc.isAcquire]
    · simp [hij]

theorem callsOnce_exec (acts : List (Action Err Data)) (s s' : World Err Data)
    (h : Inv s) (hc : CallsOnce s) (hs : exec s acts = some s') : CallsOnce s' := by
  induction acts generalizing s with
  | nil =>
    simp only [exec, Option.some.injEq] at hs
    exact hs ▸ hc
  | cons a rest ih =>
    simp only [exec] at hs
    split at hs
    · rename_i s1 h1
      exact ih s1 (inv_step s s1 a h h1) (callsOnce_step s s1 a h hc h1) hs
    · simp at hs

theorem callsOnce_reachable (limit : Nat) (size : Int) (s : World Err Data)
    (h : Reachable limit size s) :
    CallsOnce s := by
  obtain ⟨w, acts, hb, he⟩ := h
  have hi := inv_boot limit size w hb
  obtain ⟨_, hw⟩ := boot_eq limit size w hb
  refine callsOnce_exec acts w s hi ?_ he
  intro j
  rw [hw]
  simp [invoked]

theorem startAll_exec (tasks : List ((Data → Option Err) × Data)) (s : World Err Data)
    (hp : s.panicked = false)
    (hroom : s.p.size.buf.length + tasks.length ≤ s.p.size.cap) :
    ∃ s', exec s (startAll s.runs.length tasks) = some s' ∧
      s'.runs = s.runs ++ tasks.map (fun x =>
        { callBack := x.1, data := x.2, pc := RunPc.running }) ∧
      s'.p.size.buf.length = s.p.size.buf.length + tasks.length ∧
      s'.sent = s.sent ∧ s'.wait = s.wait := by
  induction tasks generalizing s with
  | nil => exact ⟨s, rfl, by simp, by simp, rfl, rfl⟩
  | cons x rest ih =>
    obtain ⟨cb, d⟩ := x
    simp only [List.length_cons] at hroom
    have hlt : s.p.size.buf.length < s.p.size.cap := by omega
    let s2 : World Err Data :=
      { s with
        p := pushSlot s.p
        runs := s.runs ++ [{ callBack := cb, data := d, pc := RunPc.running }]
        calls := s.calls ++ [(s.runs.length, d)] }
    have h2 : exec s (startAll s.runs.length ((cb, d) :: rest))
        = exec s2 (startAll s2.runs.length rest) := by
      simp only [startAll, exec, step, stepCall, stepAcquire, hp, Bool.false_eq_true,
        if_false, last_get, hlt, if_true, last_set, RunCall.goto]
      simp [s2, hp]
    have hlen2 : s2.p.size.buf.length = s.p.size.buf.length + 1 := by
      simp [s2, pushSlot]
    have hcap2 : s2.p.size.cap = s.p.size.cap := rfl
    obtain ⟨s', e1, e2, e3, e4, e5⟩ := ih s2 hp (by omega)
    refine ⟨s', by rw [h2]; exact e1, ?_, ?_, e4, e5⟩
    · rw [e2]
      simp [s2]
    · rw [e3, hlen2, List.length_cons]
      omega

end Invariant

/-! ## Claims -/

section Claims
variable {Err Data : Type}

/-- C1: for a runner built by NewFanOut(N), in every reachable state the
number of callbacks currently executing is at most the number of tokens in
the slot channel, which is at most N; so at no instant do more than N
callbacks execute. -/
theorem concurrency_bound (limit N : Nat) (s : World Err Data) (h : Reachable limit (N : Int) s) :
    executing s ≤ tokens s ∧ tokens s ≤ N ∧ executing s ≤ N := by
  have hi := inv_reachable _ _ s h
  have hc := (cap_reachable limit N s h).1
  have h1 : executing s ≤ holders s := by
    apply List.countP_mono_left
    intro t _ ht
    cases hp : t.pc <;> simp [RunCall.isRunning, RunCall.holds, RunPc.isRunning,
      RunPc.holdsSlot, hp] at *
  have h2 := hi.slots
  have h3 := hi.slotLe
  simp only [tokens]
  omega

/-- C3: in every reachable state in which Wait has finished acquiring its
slots (so also when it has returned) no callback is executing, no Run call
holds a slot, every Run call is either not admitted or has returned, the
errors handed to the error channel are exactly the errors produced by the
admitted calls, and the value Wait returns is made of the errors handed to
the channel. -/
theorem wait_after_drain (limit N : Nat) (s : World Err Data) (h : Reachable limit (N : Int) s)
    (hd : s.wait.drained s.p.size.cap = true) :
    executing s = 0 ∧ holders s = 0 ∧
    (∀ t ∈ s.runs, t.pc = RunPc.acquire ∨ t.pc = RunPc.done) ∧
    s.sent.Perm (s.runs.filterMap RunCall.produced) ∧
    (∀ r, s.wait = WaitPc.returned r → r = waitResult s.sent) := by
  have hi := inv_reachable _ _ s h
  obtain ⟨h0, _⟩ := drained_facts s hi hd
  have hpcs := idle_or_done_of_holders s h0
  refine ⟨?_, h0, hpcs, ?_, fun r hr => (returned_facts s r hi hr).1⟩
  · apply List.countP_eq_zero.mpr
    intro t ht
    rcases hpcs t ht with hp | hp <;> simp [RunCall.isRunning, RunPc.isRunning, hp]
  · have hfm : s.runs.filterMap RunCall.produced = s.runs.filterMap RunCall.reported := by
      apply List.filterMap_congr
      intro t ht
      rcases hpcs t ht with hp | hp <;> simp [RunCall.produced, RunCall.reported, hp]
    rw [hfm]
    exact hi.perm

/-- C4: when every Run call made has returned, Wait called then runs to its
return, and whenever Wait has returned r, r is nil exactly when no callback
returned a non-nil error, and a non-nil r is a non-empty list. -/
theorem wait_nil_iff (limit N : Nat) (s : World Err Data)
    (h : Reachable limit (N : Int) s) (hdone : ∀ t ∈ s.runs, t.pc = RunPc.done) :
    (∀ r, s.wait = WaitPc.returned r →
      (r = none ↔ ∀ t ∈ s.runs, t.callBack t.data = none) ∧ (∀ l, r = some l → l ≠ [])) ∧
    (s.wait = WaitPc.idle →
      ∃ s' r, Wait s = some s' ∧ s'.wait = WaitPc.returned r ∧ s'.runs = s.runs ∧
        (r = none ↔ ∀ t ∈ s.runs, t.callBack t.data = none) ∧
        (∀ l, r = some l → l ≠ [])) := by
  have hi := inv_reachable _ _ s h
  have hfm : s.runs.filterMap RunCall.reported = s.runs.filterMap RunCall.result := by
    apply List.filterMap_congr
    intro t ht
    simp [RunCall.reported, RunCall.result, hdone t ht]
  have hp := hi.perm
  rw [hfm] at hp
  have key : (waitResult s.sent = none ↔ ∀ t ∈ s.runs, t.callBack t.data = none) ∧
      (∀ l, waitResult s.sent = some l → l ≠ []) := by
    constructor
    · rw [waitResult_eq_none]
      constructor
      · intro h0
        rw [h0] at hp
        have := List.nil_perm.mp hp
        simpa [RunCall.result] using List.filterMap_eq_nil_iff.mp this
      · intro hall
        have : s.runs.filterMap RunCall.result = [] :=
          List.filterMap_eq_nil_iff.mpr (by simpa [RunCall.result] using hall)
        rw [this] at hp
        exact List.perm_nil.mp hp
    · intro l hl hnil
      subst hnil
      unfold waitResult at hl
      split at hl
      · simp at hl
      · rename_i hne
        simp only [Option.some.injEq] at hl
        rw [hl] at hne
        simp at hne
  constructor
  · intro r hr
    rw [(returned_facts s r hi hr).1]
    exact key
  · intro hw
    have h0 : holders s = 0 := by
      apply List.countP_eq_zero.mpr
      intro t ht
      simp [RunCall.holds, RunPc.holdsSlot, hdone t ht]
    obtain ⟨s', e1, e2, e3, _⟩ := wait_returns s hi hw h0
    exact ⟨s', _, e1, e2, e3, key.1, key.2⟩

/-- C2: when every Run call made has returned, the errors handed to the
error channel are the non-nil errors returned by the callbacks, each exactly
once (a permutation of them, hence as many), and in the order of the calls
when a single caller issued the Run calls one after another; whenever Wait
has returned, its result holds exactly the errors handed to the channel, in
the order of the sends; and Wait called then runs to its return with that
result. -/
theorem wait_collects (limit N : Nat) (s : World Err Data)
    (h : Reachable limit (N : Int) s) (hdone : ∀ t ∈ s.runs, t.pc = RunPc.done) :
    s.sent.Perm (s.runs.filterMap RunCall.result) ∧
    s.sent.length = (s.runs.filterMap RunCall.result).length ∧
    (ReachableSeq limit (N : Int) s → s.sent = s.runs.filterMap RunCall.result) ∧
    (∀ r, s.wait = WaitPc.returned r → r = waitResult s.sent ∧ r.getD [] = s.sent) ∧
    (s.wait = WaitPc.idle →
      ∃ s', Wait s = some s' ∧ s'.wait = WaitPc.returned (waitResult s.sent) ∧
        s'.runs = s.runs ∧ s'.sent = s.sent) := by
  have hi := inv_reachable _ _ s h
  have hfm : s.runs.filterMap RunCall.reported = s.runs.filterMap RunCall.result := by
    apply List.filterMap_congr
    intro t ht
    simp [RunCall.reported, RunCall.result, hdone t ht]
  have hp := hi.perm
  rw [hfm] at hp
  refine ⟨hp, hp.length_eq, ?_, ?_, ?_⟩
  · intro hs
    obtain ⟨hq, _⟩ := invSeq_reachable _ _ s hs
    rw [hq.order, hfm]
  · intro r hr
    obtain ⟨hres, _, _⟩ := returned_facts s r hi hr
    exact ⟨hres, by rw [hres]; exact waitResult_getD _⟩
  · intro hw
    have h0 : holders s = 0 := by
      apply List.countP_eq_zero.mpr
      intro t ht
      simp [RunCall.holds, RunPc.holdsSlot, hdone t ht]
    obtain ⟨s', e1, e2, e3, e4, _⟩ := wait_returns s hi hw h0
    exact ⟨s', e1, e2, e3, e4⟩

/-- C9 (what the code does): with a single caller issuing the Run calls, at
most one callback is executing in every reachable state, whatever the size:
Run does not return before its callback has. -/
theorem single_caller_serial (limit N : Nat) (s : World Err Data)
    (h : ReachableSeq limit (N : Int) s) : executing s ≤ 1 := by
  obtain ⟨hq, _⟩ := invSeq_reachable _ _ s h
  exact abl_countP s.runs hq.serial

/-- C8: once Wait has finished acquiring its slots, in every later state
the slot channel still holds N tokens and Wait is still past its loop; no
Run call holds a slot, every Run call entered since is still waiting for
admission, no callback has been invoked and no error sent since; and a
value returned by Wait stays what it was, the collector's slice unchanged. -/
theorem closed_forever (limit N : Nat) (s s' : World Err Data) (acts : List (Action Err Data))
    (h : Reachable limit (N : Int) s) (hd : s.wait.drained s.p.size.cap = true)
    (he : exec s acts = some s') :
    tokens s' = N ∧ s'.wait.drained N = true ∧ holders s' = 0 ∧
    (∃ extra, s'.runs = s.runs ++ extra ∧ ∀ t ∈ extra, t.pc = RunPc.acquire) ∧
    s'.calls = s.calls ∧ s'.sent = s.sent ∧
    (∀ r, s.wait = WaitPc.returned r → s'.wait = WaitPc.returned r ∧ s'.p.errs = s.p.errs) := by
  have hi := inv_reachable _ _ s h
  have hi' := inv_exec acts s s' hi he
  have hc := (cap_reachable limit N s h).1
  have hc' := (cap_exec acts s s' he).1
  obtain ⟨a1, a2, a3, a4, a5⟩ := drained_exec acts s s' hi hd he
  obtain ⟨b1, b2⟩ := drained_facts s' hi' a1
  rw [hc', hc] at a1 b2
  exact ⟨b2, a1, b1, a4, a2, a3, a5⟩

/-- C10: NewFanOut(0) succeeds; on that runner, in every reachable state
every Run call is still waiting for admission, no callback has been invoked,
the slot channel is empty, Wait has acquired no slot and, when it has
returned, it has returned nil; and Wait, called in any reachable state in
which it is not yet called, runs to its return, with nil. -/
theorem zero_capacity (limit : Nat) :
    (NewFanOut Err limit 0).isSome = true ∧
    (∀ s : World Err Data, Reachable limit 0 s →
      (∀ t ∈ s.runs, t.pc = RunPc.acquire) ∧ s.calls = [] ∧ tokens s = 0 ∧
      (∀ i, s.wait = WaitPc.loop i → i = 0) ∧
      (∀ r, s.wait = WaitPc.returned r → r = none)) ∧
    (∀ s : World Err Data, Reachable limit 0 s → s.wait = WaitPc.idle →
      ∃ s', Wait s = some s' ∧ s'.wait = WaitPc.returned none) := by
  have key : ∀ s : World Err Data, Reachable limit 0 s →
      Inv s ∧ s.p.size.cap = 0 ∧ (∀ t ∈ s.runs, t.pc = RunPc.acquire) ∧ s.calls = [] ∧
      s.sent = [] := by
    intro s h
    have hi := inv_reachable _ _ s h
    have hc := (cap_reachable limit 0 s h).1
    obtain ⟨w, acts, hb, he⟩ := h
    obtain ⟨_, hw⟩ := boot_eq _ _ w hb
    have hz := zero_exec acts w s (inv_boot _ _ w hb) (by rw [hw]; rfl)
      (by rw [hw]; simp) he
    refine ⟨hi, hc, hz.1, hz.2, ?_⟩
    have hp := hi.perm
    have : s.runs.filterMap RunCall.reported = [] := by
      apply List.filterMap_eq_nil_iff.mpr
      intro t ht
      simp [RunCall.reported, hz.1 t ht]
    rw [this] at hp
    exact List.perm_nil.mp hp
  refine ⟨rfl, ?_, ?_⟩
  · intro s h
    obtain ⟨hi, hc, h1, h2, h3⟩ := key s h
    refine ⟨h1, h2, ?_, ?_, ?_⟩
    · have := hi.slotLe
      simp only [tokens]
      omega
    · intro i hw
      have := hi.loopLe i hw
      omega
    · intro r hr
      rw [(returned_facts s r hi hr).1, h3]
      rfl
  · intro s h hw
    obtain ⟨hi, hc, h1, h2, h3⟩ := key s h
    have h0 : holders s = 0 := by
      apply List.countP_eq_zero.mpr
      intro t ht
      simp [RunCall.holds, RunPc.holdsSlot, h1 t ht]
    obtain ⟨s', e1, e2, _⟩ := wait_returns s hi hw h0
    refine ⟨s', e1, ?_⟩
    rw [e2, h3]
    rfl

/-- C6: the bound is attained.  For every N for which NewFanOut(N)
succeeds and every N tasks there is a reachable state of the runner built by
NewFanOut(N) in which the N callers have all been admitted and all N
callbacks are executing, none having returned: N callbacks executing, N
tokens in the slot channel, no error sent. -/
theorem capacity_attained (limit N : Nat) (tasks : List ((Data → Option Err) × Data))
    (hok : (NewFanOut Err limit (N : Int)).isSome = true) (hlen : tasks.length = N) :
    ∃ s : World Err Data, Reachable limit (N : Int) s ∧
      s.runs = tasks.map (fun x => { callBack := x.1, data := x.2, pc := RunPc.running }) ∧
      executing s = N ∧ tokens s = N ∧ s.sent = [] := by
  let w : World Err Data :=
    { p := { errChan := makeChan Err N, size := makeChan Bool N, errs := [], routine := 1 },
      runs := [], wait := WaitPc.idle, panicked := false, sent := [], calls := [] }
  have hle : N ≤ limit := (newFanOut_isSome Err limit (N : Int)).mp hok |>.2
  have hb : boot Err Data limit (N : Int) = some w := by
    simp [boot, NewFanOut, FanOut.start, w, hle]
  obtain ⟨s, e1, e2, e3, e4, _⟩ := startAll_exec tasks w rfl (by simp [w, makeChan, hlen])
  refine ⟨s, ⟨w, _, hb, e1⟩, by simpa [w] using e2, ?_, ?_, by simpa [w] using e4⟩
  · rw [executing, e2]
    simp [w, List.countP_map, RunCall.isRunning, RunPc.isRunning, Function.comp_def, hlen]
  · rw [tokens, e3]
    simp [w, makeChan, hlen]

/-- C7 (amended): both channels are created with capacity N and keep it; in
every reachable state the error channel buffers at most N errors, which are
the errors sent and not yet received by the collector; and a Run call that
is at its send on the error channel finds the channel open and the
collector running.  With fewer than N errors buffered its send is enabled at
once and appends its error to the buffer.  With N errors buffered its send is
not enabled, the collector is enabled to receive one error, which leaves
fewer than N buffered, and after that receive the send is enabled. -/
theorem report_send (limit N : Nat) (s : World Err Data)
    (h : Reachable limit (N : Int) s) :
    (∀ p, NewFanOut Err limit (N : Int) = some p → p.errChan.cap = N ∧ p.size.cap = N) ∧
    s.p.errChan.cap = N ∧ s.p.size.cap = N ∧ s.p.errChan.buf.length ≤ N ∧
    s.sent = s.p.errs ++ s.p.errChan.buf ∧
    (∀ (i : Nat) (t : RunCall Err Data) (e : Err),
      s.runs[i]? = some t → t.pc = RunPc.report e →
      s.p.errChan.closed = false ∧ s.p.routine ≠ 0 ∧
      (s.p.errChan.buf.length < N →
        ∃ s1, step s (Action.report i) = some s1 ∧
          s1.p.errChan.buf = s.p.errChan.buf ++ [e] ∧ s1.sent = s.sent ++ [e] ∧
          s1.panicked = false) ∧
      (s.p.errChan.buf.length = N →
        step s (Action.report i) = none ∧ step s (Action.handoff i) = none ∧
        ∃ s1 s2, step s Action.collect = some s1 ∧ s1.p.errChan.buf.length < N ∧
          step s1 (Action.report i) = some s2 ∧
          s2.p.errChan.buf = s.p.errChan.buf.tail ++ [e] ∧
          s2.sent = s.sent ++ [e] ∧ s2.panicked = false)) := by
  have hi := inv_reachable _ _ s h
  obtain ⟨hc1, hc2⟩ := cap_reachable limit N s h
  have hle := hi.errLe
  have hnp := hi.noPanic
  refine ⟨?_, hc2, hc1, by omega, hi.log, ?_⟩
  · intro p hp
    simp only [NewFanOut, FanOut.start, makeChan] at hp
    split at hp
    · simp at hp
    · simp only [Option.some.injEq] at hp
      subst hp
      simp
  · intro i t e ht hpc
    have hopen := open_of_holder s i t hi ht (by simp [hpc, RunPc.holdsSlot])
    have hrt : s.p.routine ≠ 0 := by
      intro h0
      have := (hi.routine h0).1
      simp [hopen] at this
    refine ⟨hopen, hrt, ?_, ?_⟩
    · intro hlt
      rw [← hc2] at hlt
      simp [step, stepReport, ht, hpc, hopen, hnp, hlt]
    · intro heq
      have h1 := no_release_on_empty s i t hi ht (by simp [hpc, RunPc.holdsSlot])
      have h2 := hi.slotLe
      cases hbuf : s.p.errChan.buf with
      | nil =>
        simp only [hbuf, List.length_nil] at heq
        omega
      | cons e0 rest =>
        have hlt : rest.length < s.p.errChan.cap := by
          simp only [hbuf, List.length_cons] at heq
          omega
        have hlt2 : rest.length < N := by omega
        have hfull : ¬ (rest.length + 1 < s.p.errChan.cap) := by
          simp only [hbuf, List.length_cons] at heq
          omega
        refine ⟨?_, ?_, ?_⟩
        · simp [step, stepReport, ht, hpc, hopen, hnp, hbuf, hfull]
        · simp [step, stepHandoff, ht, hpc, hnp, hbuf]
        · simp [step, stepCollect, stepReport, ht, hpc, hopen, hnp, hrt, hbuf, hlt, hlt2]

/-- C5: from a reachable state with a free slot, a new call Run(cb, d) taken
to completion returns.  It first sends its token on the slot channel and
invokes the callback, exactly once and on d, the token staying in the channel
while the callback executes; on return one token has been received back, so
the slot channel holds as many tokens as before the call, and the number of
slot holders is what it was.  When the callback returns nil the error
channel and the collector's slice are untouched; when it returns the error e,
e has been enqueued last in the buffer of the error channel (after one
receive of the collector when the buffer was full), so that the errors held
by the collector and the channel together are extended by exactly e.  The
other Run calls, Wait, the closed flag and the WaitGroup have not moved. -/
theorem run_completes (limit N : Nat) (s : World Err Data) (cb : Data → Option Err)
    (d : Data) (h : Reachable limit (N : Int) s) (hfree : tokens s < N) :
    ∃ s1 s',
      exec s [Action.call cb d, Action.acquire s.runs.length] = some s1 ∧
      s1.p.size.buf = s.p.size.buf ++ [true] ∧
      s1.runs = s.runs ++ [{ callBack := cb, data := d, pc := RunPc.running }] ∧
      s1.calls = s.calls ++ [(s.runs.length, d)] ∧
      exec s1 ((runSchedule s cb d).drop 2) = some s' ∧
      Run s cb d = some s' ∧
      s'.runs = s.runs ++ [{ callBack := cb, data := d, pc := RunPc.done }] ∧
      s'.calls = s.calls ++ [(s.runs.length, d)] ∧
      s'.calls.filter (fun c => c.1 == s.runs.length) = [(s.runs.length, d)] ∧
      s'.p.size.buf = (s.p.size.buf ++ [true]).tail ∧ s'.p.size.cap = s.p.size.cap ∧
      tokens s' = tokens s ∧ holders s' = holders s ∧
      s'.sent = s.sent ++ (cb d).toList ∧
      s'.p.errs ++ s'.p.errChan.buf = s.p.errs ++ s.p.errChan.buf ++ (cb d).toList ∧
      (cb d = none → s'.p.errChan = s.p.errChan ∧ s'.p.errs = s.p.errs) ∧
      (∀ e, cb d = some e → s.p.errChan.buf.length < s.p.errChan.cap →
        s'.p.errChan.buf = s.p.errChan.buf ++ [e] ∧ s'.p.errs = s.p.errs) ∧
      (∀ e, cb d = some e → ¬ s.p.errChan.buf.length < s.p.errChan.cap →
        s'.p.errChan.buf = s.p.errChan.buf.tail ++ [e] ∧
        s'.p.errs = s.p.errs ++ s.p.errChan.buf.head?.toList) ∧
      s'.p.errChan.cap = s.p.errChan.cap ∧ s'.p.errChan.closed = false ∧
      s'.p.routine = s.p.routine ∧ s'.wait = s.wait ∧ s'.panicked = false := by
  have hi := inv_reachable _ _ s h
  have hco : s.calls.filter (fun c => c.1 == s.runs.length) = [] := by
    rw [callsOnce_reachable _ _ s h s.runs.length]
    simp [invoked]
  obtain ⟨hc1, hc2⟩ := cap_reachable limit N s h
  have hnp := hi.noPanic
  simp only [tokens] at hfree
  have hlt : s.p.size.buf.length < s.p.size.cap := by omega
  have hopen : s.p.errChan.closed = false := by
    cases hc : s.p.errChan.closed with
    | false => rfl
    | true =>
      have h4 := acquired_of_pastClose s.wait s.p.size.cap (by rw [← hi.closed]; exact hc)
      have h5 := hi.slots
      omega
  have hrt : s.p.routine ≠ 0 := by
    intro h0
    have := (hi.routine h0).1
    simp [hopen] at this
  have hle := hi.errLe
  have hholders : ∀ l : List (RunCall Err Data),
      (l ++ [({ callBack := cb, data := d, pc := RunPc.done } : RunCall Err Data)]).countP
        RunCall.holds = l.countP RunCall.holds := by
    intro l
    simp [List.countP_append, RunCall.holds, RunPc.holdsSlot]
  refine ⟨{ s with
      p := pushSlot s.p
      runs := s.runs ++ [{ callBack := cb, data := d, pc := RunPc.running }]
      calls := s.calls ++ [(s.runs.length, d)] }, ?_⟩
  cases hsz : s.p.size.buf with
  | nil =>
    have hlt' := hlt
    simp only [hsz, List.length_nil] at hlt'
    cases hcb : cb d with
    | none =>
      simp [Run, runSchedule, exec, step, stepCall, stepAcquire, stepFinish, stepRelease,
        stepReport, stepCollect, hnp, hlt', hcb, last_get, last_set, RunCall.goto, pushSlot,
        hsz, tokens, holders, hholders, hco, hopen]
    | some e =>
      by_cases hroom : s.p.errChan.buf.length < s.p.errChan.cap
      · simp [Run, runSchedule, exec, step, stepCall, stepAcquire, stepFinish, stepRelease,
        stepReport, stepCollect, hnp, hlt', hcb, last_get, last_set, RunCall.goto, pushSlot,
        hsz, tokens, holders, hholders, hco, hopen, hroom]
      · cases hbuf : s.p.errChan.buf with
        | nil =>
          simp only [hbuf, List.length_nil] at hroom
          omega
        | cons e0 rest =>
          have hr : rest.length < s.p.errChan.cap := by
            simp only [hbuf, List.length_cons] at hle
            omega
          simp only [hbuf, List.length_cons] at hroom
          simp [Run, runSchedule, exec, step, stepCall, stepAcquire, stepFinish, stepRelease,
        stepReport, stepCollect, hnp, hlt', hcb, last_get, last_set, RunCall.goto, pushSlot,
        hsz, tokens, holders, hholders, hco, hopen, hroom, hbuf, hrt, hr]
  | cons b more =>
    have hlt' := hlt
    simp only [hsz, List.length_cons] at hlt'
    cases hcb : cb d with
    | none =>
      simp [Run, runSchedule, exec, step, stepCall, stepAcquire, stepFinish, stepRelease,
        stepReport, stepCollect, hnp, hlt', hcb, last_get, last_set, RunCall.goto, pushSlot,
        hsz, tokens, holders, hholders, hco, hopen]
    | some e =>
      by_cases hroom : s.p.errChan.buf.length < s.p.errChan.cap
      · simp [Run, runSchedule, exec, step, stepCall, stepAcquire, stepFinish, stepRelease,
        stepReport, stepCollect, hnp, hlt', hcb, last_get, last_set, RunCall.goto, pushSlot,
        hsz, tokens, holders, hholders, hco, hopen, hroom]
      · cases hbuf : s.p.errChan.buf with
        | nil =>
          simp only [hbuf, List.length_nil] at hroom
          omega
        | cons e0 rest =>
          have hr : rest.length < s.p.errChan.cap := by
            simp only [hbuf, List.length_cons] at hle
            omega
          simp only [hbuf, List.length_cons] at hroom
          simp [Run, runSchedule, exec, step, stepCall, stepAcquire, stepFinish, stepRelease,
        stepReport, stepCollect, hnp, hlt', hcb, last_get, last_set, RunCall.goto, pushSlot,
        hsz, tokens, holders, hholders, hco, hopen, hroom, hbuf, hrt, hr]

/-- Witness of C1: both callbacks of bothRunning are executing on a runner
of size 2. -/
theorem concurrency_bound_witness :
    Reachable 16 ((2 : Nat) : Int) bothRunning ∧
    executing bothRunning ≤ tokens bothRunning ∧ tokens bothRunning ≤ 2 ∧
    executing bothRunning ≤ 2 :=
  have hreach : Reachable 16 ((2 : Nat) : Int) bothRunning :=
    ⟨fresh 2, bothRunningSchedule, rfl, rfl⟩
  ⟨hreach, concurrency_bound 16 2 bothRunning hreach⟩

/-- Witness of C2: the serial scenario.  Called in serialReady, Wait returns
the errors 5 and 7, in the order of the calls; in serialFinal it has. -/
theorem wait_collects_witness :
    Reachable 16 ((2 : Nat) : Int) serialReady ∧ ReachableSeq 16 ((2 : Nat) : Int) serialReady ∧
    (∀ t ∈ serialReady.runs, t.pc = RunPc.done) ∧ serialReady.wait = WaitPc.idle ∧
    serialReady.sent = serialReady.runs.filterMap RunCall.result ∧
    (∃ s', Wait serialReady = some s' ∧ s'.wait = WaitPc.returned (some [5, 7]) ∧
      s'.runs = serialReady.runs ∧ s'.sent = serialReady.sent) ∧
    Reachable 16 ((2 : Nat) : Int) serialFinal ∧
    (∀ t ∈ serialFinal.runs, t.pc = RunPc.done) ∧
    serialFinal.wait = WaitPc.returned (some [5, 7]) ∧
    some [5, 7] = waitResult serialFinal.sent :=
  have hdone : ∀ t ∈ serialReady.runs, t.pc = RunPc.done := by
    intro t ht
    simp only [serialReady, List.mem_cons, List.mem_singleton, List.not_mem_nil,
      or_false] at ht
    rcases ht with rfl | rfl | rfl <;> rfl
  have hdone2 : ∀ t ∈ serialFinal.runs, t.pc = RunPc.done := hdone
  have hreach : Reachable 16 ((2 : Nat) : Int) serialReady :=
    ⟨fresh 2, serialRunsSchedule, rfl, rfl⟩
  have hseq : ReachableSeq 16 ((2 : Nat) : Int) serialReady :=
    ⟨fresh 2, serialRunsSchedule, rfl, rfl⟩
  have hreach2 : Reachable 16 ((2 : Nat) : Int) serialFinal :=
    ⟨fresh 2, serialSchedule, rfl, rfl⟩
  have hw := wait_collects 16 2 serialReady hreach hdone
  have hw2 := wait_collects 16 2 serialFinal hreach2 hdone2
  ⟨hreach, hseq, hdone, rfl, hw.2.2.1 hseq, hw.2.2.2.2 rfl, hreach2, hdone2, rfl,
    (hw2.2.2.2.1 (some [5, 7]) rfl).1⟩

/-- Witness of C3: the serial scenario after Wait has returned. -/
theorem wait_after_drain_witness :
    Reachable 16 ((2 : Nat) : Int) serialFinal ∧
    serialFinal.wait.drained serialFinal.p.size.cap = true ∧
    executing serialFinal = 0 ∧ holders serialFinal = 0 ∧
    (∀ t ∈ serialFinal.runs, t.pc = RunPc.acquire ∨ t.pc = RunPc.done) ∧
    serialFinal.sent.Perm (serialFinal.runs.filterMap RunCall.produced) ∧
    (∀ r, serialFinal.wait = WaitPc.returned r → r = waitResult serialFinal.sent) :=
  have hreach : Reachable 16 ((2 : Nat) : Int) serialFinal :=
    ⟨fresh 2, serialSchedule, rfl, rfl⟩
  ⟨hreach, rfl, wait_after_drain 16 2 serialFinal hreach rfl⟩

/-- Witness of C4: in the serial scenario Wait returns a non-nil,
non-empty list, and not every callback returned nil. -/
theorem wait_nil_iff_witness :
    Reachable 16 ((2 : Nat) : Int) serialFinal ∧
    serialFinal.wait = WaitPc.returned (some [5, 7]) ∧
    (∀ t ∈ serialFinal.runs, t.pc = RunPc.done) ∧
    ((some [5, 7] : Option (List Nat)) = none ↔
      ∀ t ∈ serialFinal.runs, t.callBack t.data = none) ∧
    (∀ l, (some [5, 7] : Option (List Nat)) = some l → l ≠ []) ∧
    Reachable 16 ((2 : Nat) : Int) (fresh 2) ∧ (fresh 2).wait = WaitPc.idle ∧
    (∃ s' r, Wait (fresh 2) = some s' ∧ s'.wait = WaitPc.returned r ∧
      s'.runs = (fresh 2).runs ∧
      (r = none ↔ ∀ t ∈ (fresh 2).runs, t.callBack t.data = none) ∧
      (∀ l, r = some l → l ≠ [])) :=
  have hdone : ∀ t ∈ serialFinal.runs, t.pc = RunPc.done := by
    intro t ht
    simp only [serialFinal, List.mem_cons, List.mem_singleton, List.not_mem_nil,
      or_false] at ht
    rcases ht with rfl | rfl | rfl <;> rfl
  have hreach : Reachable 16 ((2 : Nat) : Int) serialFinal :=
    ⟨fresh 2, serialSchedule, rfl, rfl⟩
  have hfresh : Reachable 16 ((2 : Nat) : Int) (fresh 2) := ⟨fresh 2, [], rfl, rfl⟩
  have hw := (wait_nil_iff 16 2 serialFinal hreach hdone).1 (some [5, 7]) rfl
  ⟨hreach, rfl, hdone, hw.1, hw.2, hfresh, rfl,
    (wait_nil_iff 16 2 (fresh 2) hfresh (fun _ ht => absurd ht (List.not_mem_nil _))).2 rfl⟩

/-- Witness of C5: a call Run(failWith 9, ()) made in serialReady, where
both slots are free and the buffer of the error channel is full: the token
is in the slot channel while the callback runs and is gone on return, the
collector has received error 5 and error 9 is enqueued last. -/
theorem run_completes_witness :
    Reachable 16 ((2 : Nat) : Int) serialReady ∧ tokens serialReady < 2 ∧
    ∃ s1 s',
      exec serialReady [Action.call (failWith 9) (), Action.acquire 3] = some s1 ∧
      s1.p.size.buf = [true] ∧
      Run serialReady (failWith 9) () = some s' ∧
      s'.runs = serialReady.runs ++ [{ callBack := failWith 9, data := (), pc := RunPc.done }] ∧
      s'.calls.filter (fun c => c.1 == 3) = [(3, ())] ∧
      s'.p.size.buf = [] ∧ tokens s' = 0 ∧
      s'.sent = [5, 7, 9] ∧ s'.p.errChan.buf = [7, 9] ∧ s'.p.errs = [5] ∧
      s'.p.errChan.closed = false ∧ s'.wait = WaitPc.idle ∧ s'.panicked = false := by
  have hreach : Reachable 16 ((2 : Nat) : Int) serialReady :=
    ⟨fresh 2, serialRunsSchedule, rfl, rfl⟩
  obtain ⟨s1, s', c1, c2, _, _, _, c6, c7, _, c9, c10, _, c12, _, c14, _, _, _, c18, _, c20,
    _, c22, c23⟩ := run_completes 16 2 serialReady (failWith 9) () hreach (by decide)
  exact ⟨hreach, by decide, s1, s', c1, c2, c6, c7, c9, c10, c12, c14,
    (c18 9 rfl (by decide)).1, (c18 9 rfl (by decide)).2, c20, c22, c23⟩

/-- Witness of C6: two tasks on a runner of size 2. -/
theorem capacity_attained_witness :
    (NewFanOut Nat 16 ((2 : Nat) : Int)).isSome = true ∧
    [(failWith 5, ()), (succeed, ())].length = 2 ∧
    ∃ s : World Nat Unit, Reachable 16 ((2 : Nat) : Int) s ∧
      s.runs = [(failWith 5, ()), (succeed, ())].map
        (fun x => { callBack := x.1, data := x.2, pc := RunPc.running }) ∧
      executing s = 2 ∧ tokens s = 2 ∧ s.sent = [] :=
  ⟨rfl, rfl, capacity_attained 16 2 [(failWith 5, ()), (succeed, ())] rfl rfl⟩

/-- C7 as stated fails: on a runner of size 1, in the reachable state
fullBuffer the second Run call holds the slot and has error 7 to report
while the buffer of the error channel already holds 1 error, and its send is
not enabled. -/
theorem report_finds_full_buffer :
    (¬ ∀ (limit N : Nat) (s : World Nat Unit) (t : RunCall Nat Unit) (e : Nat),
      1 ≤ N → Reachable limit (N : Int) s → t ∈ s.runs → t.pc = RunPc.report e →
      t.pc.holdsSlot = true → s.p.errChan.buf.length < N) ∧
    (step fullBuffer (Action.report 1)).isNone = true := by
  refine ⟨?_, rfl⟩
  intro H
  have := H 16 1 fullBuffer { callBack := failWith 7, data := (), pc := RunPc.report 7 } 7
    (by decide) ⟨fresh 1, fullBufferSchedule, rfl, rfl⟩
    (List.mem_cons_of_mem _ (List.mem_cons_self _ _)) rfl rfl
  exact absurd this (by decide)

/-- Witness of C7 (amended): in the state fullBuffer (size 1) the second
call finds the channel open, the collector running and 1 error buffered; its
send is not enabled, and the collector's receive enables it.  The same in
the state heldFull (size 2), where one of the 2 buffered errors was sent by a
call that still holds its slot. -/
theorem report_send_witness :
    Reachable 16 ((1 : Nat) : Int) fullBuffer ∧
    fullBuffer.runs[1]? = some { callBack := failWith 7, data := (), pc := RunPc.report 7 } ∧
    fullBuffer.p.errChan.buf.length = 1 ∧
    fullBuffer.p.errChan.closed = false ∧ fullBuffer.p.routine ≠ 0 ∧
    step fullBuffer (Action.report 1) = none ∧ step fullBuffer (Action.handoff 1) = none ∧
    (∃ s1 s2, step fullBuffer Action.collect = some s1 ∧ s1.p.errChan.buf.length < 1 ∧
      step s1 (Action.report 1) = some s2 ∧
      s2.p.errChan.buf = fullBuffer.p.errChan.buf.tail ++ [7] ∧
      s2.sent = fullBuffer.sent ++ [7] ∧ s2.panicked = false) ∧
    Reachable 16 ((2 : Nat) : Int) heldFull ∧
    heldFull.runs[2]? = some { callBack := failWith 7, data := (), pc := RunPc.report 7 } ∧
    heldFull.p.errChan.buf.length = 2 ∧
    step heldFull (Action.report 2) = none ∧
    (∃ s1 s2, step heldFull Action.collect = some s1 ∧ s1.p.errChan.buf.length < 2 ∧
      step s1 (Action.report 2) = some s2 ∧
      s2.p.errChan.buf = heldFull.p.errChan.buf.tail ++ [7] ∧
      s2.sent = heldFull.sent ++ [7] ∧ s2.panicked = false) :=
  have hreach : Reachable 16 ((1 : Nat) : Int) fullBuffer :=
    ⟨fresh 1, fullBufferSchedule, rfl, rfl⟩
  have hw := (report_send 16 1 fullBuffer hreach).2.2.2.2.2 1
    { callBack := failWith 7, data := (), pc := RunPc.report 7 } 7 rfl rfl
  have hreach2 : Reachable 16 ((2 : Nat) : Int) heldFull :=
    ⟨fresh 2, heldFullSchedule, rfl, rfl⟩
  have hw2 := (report_send 16 2 heldFull hreach2).2.2.2.2.2 2
    { callBack := failWith 7, data := (), pc := RunPc.report 7 } 7 rfl rfl
  ⟨hreach, rfl, rfl, hw.1, hw.2.1, (hw.2.2.2 rfl).1, (hw.2.2.2 rfl).2.1, (hw.2.2.2 rfl).2.2,
    hreach2, rfl, rfl, (hw2.2.2.2 rfl).1, (hw2.2.2.2 rfl).2.2⟩

/-- Witness of C8: a caller that enters Run after Wait has returned in the
serial scenario. -/
theorem closed_forever_witness :
    Reachable 16 ((2 : Nat) : Int) serialFinal ∧
    serialFinal.wait.drained serialFinal.p.size.cap = true ∧
    exec serialFinal [Action.call (failWith 9) ()] = some serialLate ∧
    tokens serialLate = 2 ∧ serialLate.wait.drained 2 = true ∧ holders serialLate = 0 ∧
    (∃ extra, serialLate.runs = serialFinal.runs ++ extra ∧
      ∀ t ∈ extra, t.pc = RunPc.acquire) ∧
    serialLate.calls = serialFinal.calls ∧ serialLate.sent = serialFinal.sent ∧
    (∀ r, serialFinal.wait = WaitPc.returned r →
      serialLate.wait = WaitPc.returned r ∧ serialLate.p.errs = serialFinal.p.errs) :=
  have hreach : Reachable 16 ((2 : Nat) : Int) serialFinal :=
    ⟨fresh 2, serialSchedule, rfl, rfl⟩
  ⟨hreach, rfl, rfl,
    closed_forever 16 2 serialFinal serialLate [Action.call (failWith 9) ()] hreach rfl rfl⟩

/-- Witness of C9: a single caller on a runner of size 2 whose first
callback is executing. -/
theorem single_caller_serial_witness :
    ReachableSeq 16 ((2 : Nat) : Int) oneRunning ∧ executing oneRunning ≤ 1 :=
  have hseq : ReachableSeq 16 ((2 : Nat) : Int) oneRunning :=
    ⟨fresh 2, oneRunningSchedule, rfl, rfl⟩
  ⟨hseq, single_caller_serial 16 2 oneRunning hseq⟩

/-- Witness of C10: Wait on a fresh runner of size 0. -/
theorem zero_capacity_witness :
    Reachable 16 0 (fresh 0) ∧ (fresh 0).wait = WaitPc.idle ∧
    ∃ s', Wait (fresh 0) = some s' ∧ s'.wait = WaitPc.returned none :=
  have hreach : Reachable 16 0 (fresh 0) := ⟨fresh 0, [], rfl, rfl⟩
  ⟨hreach, rfl, (zero_capacity 16).2.2 (fresh 0) hreach rfl⟩

end Claims

end Holster
